import Mathlib

/-!
Verification of the tool-synchronization core of `setup-machine`.

This file gives a shallow embedding, in Lean 4, of the Go code under
`internal/installer` and `internal/state`:

* the reconciliation loop `SyncTools` (`internal/installer/sync.go`),
* the per-source dispatcher `installTool` (`internal/installer/install.go`),
* the GitHub release asset selection of `downloadFromGitHub`
  (`internal/installer/github.go`),
* the archive extraction / binary installation step `ExtractAndInstall`
  together with `findExecutables` and `extractToolNameFromPath`
  (`internal/installer/extractor.go`),
* the persisted-state loader `LoadState` (`internal/state/state.go`).

External effects (HTTP fetches, `curl`, `brew`, `go install`, `rustup`,
filesystem copies, the `file` command) are modelled by explicit oracle
records: each field of an environment structure records the outcome of one
external call, and the embedded functions branch on those outcomes exactly
the way the Go code branches on the corresponding error values.
-/

set_option autoImplicit false

namespace SetupMachine

/-! ## String helpers

Character-list implementations of the Go `strings` functions the code
uses (`strings.HasPrefix`, `strings.HasSuffix`, `strings.Contains`,
`strings.Split`, `strings.FieldsFunc`, `strings.TrimSuffix`,
`strings.ToLower`).  They are written over `List Char` so that the kernel
can evaluate them on concrete inputs.
-/

/-- Does the list `l` start with the list `p`?  (Embeds `strings.HasPrefix`
on the underlying characters.) -/
def charsStartWith : List Char → List Char → Bool
  | _, [] => true
  | [], _ :: _ => false
  | c :: cs, d :: ds => c = d && charsStartWith cs ds

/-- Does the list `l` contain `p` as a contiguous run?  (Embeds
`strings.Contains` on the underlying characters.) -/
def charsContain : List Char → List Char → Bool
  | [], p => p.isEmpty
  | c :: rest, p => charsStartWith (c :: rest) p || charsContain rest p

/-- Embeds Go `strings.HasPrefix s pre`. -/
def strStartsWith (s pre : String) : Bool :=
  charsStartWith s.data pre.data

/-- Embeds Go `strings.HasSuffix s suffix`. -/
def strEndsWith (s suffix : String) : Bool :=
  charsStartWith s.data.reverse suffix.data.reverse

/-- Embeds Go `strings.Contains s sub`. -/
def strContainsSub (s sub : String) : Bool :=
  charsContain s.data sub.data

/-- ASCII lower-casing of one character.  Go's `strings.ToLower` is full
Unicode; the asset names and patterns compared in this code are ASCII, for
which the two agree. -/
def charLower (c : Char) : Char :=
  if 'A' ≤ c && c ≤ 'Z' then Char.ofNat (c.toNat + 32) else c

/-- Embeds Go `strings.ToLower` (on ASCII data). -/
def strLower (s : String) : String :=
  String.mk (s.data.map charLower)

/-- Splits a character list at every occurrence of `sep`, keeping empty
groups, as Go `strings.Split` does: the result always has at least one
group. -/
def splitChars (sep : Char) : List Char → List (List Char)
  | [] => [[]]
  | c :: rest =>
    match splitChars sep rest with
    | [] => [[]]
    | g :: gs => if c = sep then [] :: g :: gs else (c :: g) :: gs

/-- Embeds Go `strings.Split s (String.singleton sep)`. -/
def splitOnChar (s : String) (sep : Char) : List String :=
  (splitChars sep s.data).map String.mk

/-- Embeds Go `strings.TrimSuffix s suffix`. -/
def stripSuffix (s suffix : String) : String :=
  if strEndsWith s suffix then
    String.mk (s.data.take (s.data.length - suffix.data.length))
  else s

/-! ## Path helpers

Embeddings of `path/filepath.Join` and `path/filepath.Base` (equivalently
`path.Base`, which on the slash-separated paths used here agrees).
`filepath.Join` additionally runs `filepath.Clean` on the result; none of
the joins in this code ever feed it `.`/`..` components or interior
duplicate separators, for which `Clean` is the identity, so the model
joins non-empty components with a single separator.
-/

/-- Embeds Go `filepath.Join(a, b)` (without the `Clean` normalization,
see the section comment). -/
def pathJoin (a b : String) : String :=
  if a = "" then b
  else if b = "" then a
  else a ++ "/" ++ b

/-- Embeds Go `filepath.Base`: `""` gives `"."`, trailing separators are
dropped, an all-separator path gives `"/"`, otherwise the last
slash-separated segment is returned. -/
def baseName (p : String) : String :=
  if p = "" then "."
  else
    let t := (p.data.reverse.dropWhile (fun c => c = '/')).reverse
    if t.isEmpty then "/"
    else
      match (splitChars '/' t).getLast? with
      | some g => String.mk g
      | none => String.mk t

/-! ## Data model

`Tool` embeds `config.Tool` (`internal/config/types.go`), `ToolState`
embeds `state.ToolState` (`internal/state/state.go`).  The `Tools` map of
`state.State` is embedded as an association list from tool name to
`ToolState`; a well-formed Go map has pairwise-distinct keys, which
theorems assume through a `Nodup` hypothesis on the key list.
-/

/-- Embeds `state.ToolState`. -/
structure ToolState where
  version : String
  installPath : String
  installedByDevSetup : Bool
deriving DecidableEq, Repr

/-- Embeds `config.Tool`. -/
structure Tool where
  name : String
  version : String
  source : String
  url : String
  repo : String
  tag : String
deriving DecidableEq, Repr

/-- Embeds the `Tools` field of `state.State` (a Go `map[string]ToolState`). -/
abbrev ToolMap := List (String × ToolState)

/-- Map read `m[n]`: the value stored for key `n`, if any. -/
def lookupName (n : String) : ToolMap → Option ToolState
  | [] => none
  | e :: rest => if e.1 = n then some e.2 else lookupName n rest

/-- Map write `m[n] = v`: replaces the entry for `n` in place, or appends
a new entry. -/
def setName (n : String) (v : ToolState) : ToolMap → ToolMap
  | [] => [(n, v)]
  | e :: rest => if e.1 = n then (n, v) :: rest else e :: setName n v rest

/-- Map deletion `delete(m, n)`. -/
def delName (n : String) : ToolMap → ToolMap
  | [] => []
  | e :: rest => if e.1 = n then delName n rest else e :: delName n rest

/-- Key list of the map. -/
abbrev keysOf (m : ToolMap) : List String := m.map Prod.fst

/-! ## The reconciliation loop `SyncTools`

`SyncTools` (`internal/installer/sync.go:19-75`) makes two passes:

1. Install phase: for each desired `tool`, it reads
   `curToolState, ok := st.Tools[tool.Name]`; when `!ok ||
   curToolState.Version != tool.Version` it runs `installTool`
   concurrently and, on success, writes
   `state.ToolState{Version: tool.Version, InstallPath: installPath,
   InstalledByDevSetup: true}` under a mutex; otherwise it logs that the
   tool is current and skips it.
2. Removal phase (sequential): for each state entry whose name was not
   marked in `existing`, it runs `uninstallTool`; on success it deletes
   the entry, on failure it keeps it and logs a warning.

The embedding sequentializes the concurrent phase: each tool's branch
condition reads the state snapshot taken before the phase (the per-name
reads and writes of distinct goroutines are independent, tool names being
the synchronization unit), and the per-tool writes are then folded over
the map.  Outcomes of `installTool` and `uninstallTool` are oracle
functions `inst` / `uninst`; `inst t = some p` models
`installTool(t) = (true, p)` and `inst t = none` models failure.
The phases also produce a log of `SyncAction`s, one per considered tool
or stale entry, mirroring the log line each branch of the Go code emits.
-/

/-- One observable action of a `SyncTools` pass (mirrors the branch taken,
and the record written, for each tool the loop considers). -/
inductive SyncAction where
  | installed (name : String) (rec : ToolState)
  | installFailed (name : String)
  | skipped (name : String)
  | uninstalled (name : String)
  | uninstallFailed (name : String)
deriving DecidableEq, Repr

/-- Name carried by an action. -/
def SyncAction.name : SyncAction → String
  | .installed n _ => n
  | .installFailed n => n
  | .skipped n => n
  | .uninstalled n => n
  | .uninstallFailed n => n

/-- Record written on a successful install (`sync.go:44-48`): version is
the desired version, path the returned install path, origin flag `true`. -/
def mkRec (t : Tool) (p : String) : ToolState :=
  { version := t.version, installPath := p, installedByDevSetup := true }

/-- Branch condition of the install phase (`sync.go:30-31`): schedule when
the name is absent or the recorded version differs from the desired one by
exact string comparison. -/
def needsInstall (t : Tool) (st : ToolMap) : Bool :=
  match lookupName t.name st with
  | none => true
  | some cur => if cur.version = t.version then false else true

/-- Action the install phase takes for one desired tool, deciding against
the snapshot `st0` (`sync.go:30-57`). -/
def installAction (inst : Tool → Option String) (st0 : ToolMap) (t : Tool) :
    SyncAction :=
  if needsInstall t st0 then
    match inst t with
    | some p => .installed t.name (mkRec t p)
    | none => .installFailed t.name
  else .skipped t.name

/-- Log of the install phase: one action per desired tool, in declaration
order. -/
def installLog (inst : Tool → Option String) (tools : List Tool)
    (st0 : ToolMap) : List SyncAction :=
  tools.map (installAction inst st0)

/-- State effect of one install-phase action: only a successful install
writes to the map (`sync.go:43-49`). -/
def applyInstall (m : ToolMap) : SyncAction → ToolMap
  | .installed n rec => setName n rec m
  | _ => m

/-- Map state after the install phase. -/
def installPhase (inst : Tool → Option String) (tools : List Tool)
    (st0 : ToolMap) : ToolMap :=
  (installLog inst tools st0).foldl applyInstall st0

/-- Action of the removal phase for one state entry (`sync.go:63-72`):
entries whose name is still desired are left alone; otherwise the
uninstaller runs, and failure is logged but not fatal. -/
def removalAction (uninst : String → ToolState → Bool)
    (desired : List String) (e : String × ToolState) : Option SyncAction :=
  if e.1 ∈ desired then none
  else if uninst e.1 e.2 then some (.uninstalled e.1)
  else some (.uninstallFailed e.1)

/-- Log of the removal phase, iterating the state entries after the
install phase. -/
def removalLog (uninst : String → ToolState → Bool)
    (desired : List String) (st1 : ToolMap) : List SyncAction :=
  st1.filterMap (removalAction uninst desired)

/-- State effect of one removal-phase action: only a successful uninstall
deletes (`sync.go:66-67`). -/
def applyRemoval (m : ToolMap) : SyncAction → ToolMap
  | .uninstalled n => delName n m
  | _ => m

/-- Map state after the removal phase. -/
def removalPhase (uninst : String → ToolState → Bool)
    (desired : List String) (st1 : ToolMap) : ToolMap :=
  (removalLog uninst desired st1).foldl applyRemoval st1

/-- Embeds `SyncTools` (`sync.go:19-75`): install phase, then removal
phase over the names of the desired tools; returns the final `Tools` map
and the log of actions taken. -/
def syncTools (inst : Tool → Option String)
    (uninst : String → ToolState → Bool)
    (tools : List Tool) (st : ToolMap) : ToolMap × List SyncAction :=
  let desired := tools.map Tool.name
  let st1 := installPhase inst tools st
  let st2 := removalPhase uninst desired st1
  (st2, installLog inst tools st ++ removalLog uninst desired st1)

/-! ## GitHub release asset selection

Embeds the selection loop of `downloadFromGitHub`
(`internal/installer/github.go:76-101`): patterns are tried in the fixed
priority order `preferredPatterns`; for each pattern the assets are
scanned in listing order and the first one whose lower-cased name contains
the pattern and ends in a recognized archive suffix is taken (`break` in
both loops); if no pattern matches any asset the function returns the
`no matching asset found` error.
-/

/-- Embeds one element of `GitHubRelease.Assets`. -/
structure Asset where
  name : String
  browserDownloadURL : String
deriving DecidableEq, Repr

/-- The fixed pattern priority list of `github.go:76-78`. -/
def preferredPatterns : List String :=
  ["darwin-arm64", "darwin_aarch64", "aarch64-apple-darwin", "arm64", "macos"]

/-- Embeds the per-asset condition of `github.go:85-86`: the lower-cased
asset name contains the pattern and has one of the recognized archive
suffixes. -/
def assetMatches (pattern : String) (a : Asset) : Bool :=
  strContainsSub (strLower a.name) pattern &&
    (strEndsWith (strLower a.name) ".tar.gz" ||
     strEndsWith (strLower a.name) ".tgz" ||
     strEndsWith (strLower a.name) ".zip")

/-- Embeds the nested search loops of `github.go:81-96`. -/
def selectAsset (patterns : List String) (assets : List Asset) :
    Option Asset :=
  match patterns with
  | [] => none
  | p :: rest =>
    match assets.find? (assetMatches p) with
    | some a => some a
    | none => selectAsset rest assets

/-- Embeds the asset-selection stage of `downloadFromGitHub`
(`github.go:81-101`): a selected asset, or the error of `github.go:99-101`
(whose formatted OS/arch/tag details are elided here). -/
def downloadSelect (assets : List Asset) : Except String Asset :=
  match selectAsset preferredPatterns assets with
  | some a => Except.ok a
  | none => Except.error "no matching asset found"

/-! ## Top-level entry tracking of the extractors

Both `extractTarArchive` (`extractor.go:137-179`) and `extractZip`
(`extractor.go:183-223`) keep a `topLevel` string, initially empty, and
for each archive entry run: `if topLevel == "" { parts := strings.Split(
name, sep); if len(parts) > 0 { topLevel = parts[0] } }`.  Since `Split`
always returns at least one element, the guard is always taken, and the
assignment stores the entry's first segment, which may itself be `""`.
The returned extraction root is `filepath.Join(dest, topLevel)`.
-/

/-- First slash-separated segment of an archive entry name (`parts[0]`). -/
def firstSegment (name : String) : String :=
  match splitOnChar name '/' with
  | [] => ""
  | s :: _ => s

/-- Embeds the `topLevel` accumulation loop over the entry names of the
archive, in archive order. -/
def topLevelOf (entries : List String) : String :=
  entries.foldl (fun acc name => if acc = "" then firstSegment name else acc) ""

/-- Embeds the extraction-root computation of `extractTarArchive` /
`extractZip`: the destination joined with the recorded top-level name. -/
def extractionRoot (dest : String) (entries : List String) : String :=
  pathJoin dest (topLevelOf entries)

/-- Reference definition taken from the spec's wording for comparison: the
top-level name is the first segment of the first-seen entry with a
non-empty first segment. -/
def specTopLevelFirstSeen (entries : List String) : String :=
  match entries with
  | [] => ""
  | e :: rest =>
    if firstSegment e = "" then specTopLevelFirstSeen rest else firstSegment e

/-! ## The state loader `LoadState`

`LoadState` (`internal/state/state.go:36-60`) reads the state file; on a
read error it returns a fresh `State` with empty (non-nil) maps; otherwise
it unmarshals, ignoring any unmarshal error (leaving the zero `State`),
and replaces a nil `Tools` or `Settings` map by an empty one.

A Go map value that may be nil is embedded as an `Option`; `none` is a nil
map, `some []` an empty non-nil one.  The input of `loadState` is the
outcome of `os.ReadFile` + `json.Unmarshal`: `none` when the read fails,
otherwise the (possibly partial, possibly zero-valued after a parse
error) decoded record.
-/

/-- Embeds `state.SettingState`. -/
structure SettingState where
  domain : String
  key : String
  value : String
deriving DecidableEq, Repr

/-- Embeds `state.State`, with each Go map field as an `Option` of an
association list to represent possible nil-ness. -/
structure StateFile where
  tools : Option (List (String × ToolState))
  settings : Option (List (String × SettingState))
deriving DecidableEq, Repr

/-- Embeds `LoadState` (`state.go:36-60`) over the decoded input. -/
def loadState (readResult : Option StateFile) : StateFile :=
  match readResult with
  | none => { tools := some [], settings := some [] }
  | some st =>
    { tools :=
        match st.tools with
        | none => some []
        | some m => some m,
      settings :=
        match st.settings with
        | none => some []
        | some m => some m }

/-! ## Archive extraction and binary installation

Embeds `ExtractAndInstall` (`internal/installer/extractor.go:20-66`; the
variant `extractAndInstall` of the companion source agrees on everything
modelled here): after extraction, a tool name is inferred from the archive
filename; if the extracted path is a directory, `findExecutables` gathers
candidate binaries (error if none), otherwise the single extracted file is
taken as the binary unconditionally; each binary is then copied to
`/usr/local/bin`, falling back once per binary to a freshly created
`$HOME/bin` and switching `destination` to it for the rest of the loop;
the returned path is `filepath.Join(destination, filepath.Base(
binaries[0]))` with `destination` as left by the loop.

Filesystem outcomes are oracles: `CopyEnv.copyOk b d` is the success of
`copyBinary`/`copyFile` for binary `b` into directory `d`, and
`CopyEnv.mkdirHomeOk` the success of `os.MkdirAll` on the fallback
directory.
-/

/-- The archive suffix list of `extractToolNameFromPath`
(`extractor.go:73`). -/
def archiveExts : List String :=
  [".tar.gz", ".tgz", ".tar.bz2", ".tar.xz", ".zip", ".7z"]

/-- Embeds the suffix-stripping loop of `extractToolNameFromPath`
(`extractor.go:73-78`): the first matching extension is trimmed. -/
def stripArchiveExt (filename : String) : String :=
  match archiveExts.find? (fun e => strEndsWith filename e) with
  | some e => stripSuffix filename e
  | none => filename

/-- Embeds `strings.FieldsFunc(s, r == '-' || r == '_')`
(`extractor.go:81-83`): maximal runs between the delimiters, empty runs
dropped. -/
def splitDelims (s : String) : List String :=
  ((((splitChars '-' s.data).map (fun g => splitChars '_' g)).flatten).filter
      (fun g => !g.isEmpty)).map String.mk

/-- Embeds `extractToolNameFromPath` (`extractor.go:69-89`). -/
def extractToolNameFromPath (p : String) : String :=
  let filename := stripArchiveExt (baseName p)
  match splitDelims filename with
  | [] => filename
  | x :: _ => x

/-- Oracles for the filesystem effects of the binary-copy loop. -/
structure CopyEnv where
  copyOk : String → String → Bool
  mkdirHomeOk : Bool

/-- The system-wide binary directory (`extractor.go:49`). -/
def usrLocalBin : String := "/usr/local/bin"

/-- The per-user fallback binary directory (`extractor.go:53`). -/
def homeBinDir (home : String) : String := pathJoin home "bin"

/-- Embeds the copy loop of `ExtractAndInstall` (`extractor.go:50-62`).
Returns the final `destination` together with the performed copies
`(binary, directory)` in order, or `none` when the loop aborts with an
error.  The trace of copies is instrumentation: the Go code performs
exactly these `copyBinary` calls that succeed. -/
def copyBinaries (env : CopyEnv) (home : String) :
    List String → String → Option (String × List (String × String))
  | [], dest => some (dest, [])
  | b :: rest, dest =>
    if env.copyOk b dest then
      match copyBinaries env home rest dest with
      | some (d, cs) => some (d, (b, dest) :: cs)
      | none => none
    else if env.mkdirHomeOk then
      if env.copyOk b (homeBinDir home) then
        match copyBinaries env home rest (homeBinDir home) with
        | some (d, cs) => some (d, (b, homeBinDir home) :: cs)
        | none => none
      else none
    else none

/-- Embeds the tail of `ExtractAndInstall` (`extractor.go:48-65`) given
the non-empty binary list: run the copy loop from `/usr/local/bin` and
return `filepath.Join(destination, filepath.Base(binaries[0]))`. -/
def extractAndInstallResult (env : CopyEnv) (home : String)
    (binaries : List String) : Option String :=
  match copyBinaries env home binaries usrLocalBin with
  | some (d, _) => some (pathJoin d (baseName (binaries.headD "")))
  | none => none

/-- One file met by the `filepath.WalkDir` of `findExecutables`
(`extractor.go:269-321`), with the oracle outcomes the walk consults:
whether `mode.IsRegular()` holds, the permission bits `mode.Perm()`, and
the (combined, pre-`ToLower`) output of `file --brief` (`none` when the
command fails). -/
structure FileEntry where
  path : String
  isRegularFile : Bool
  permBits : Nat
  fileCmdOut : Option String
deriving DecidableEq, Repr

/-- Embeds the per-file decision of `findExecutables`
(`extractor.go:287-311`): the basename must start with the inferred tool
name; then the file qualifies if it is regular with any execute
permission bit (the code's extra `strings.HasPrefix(mode.String(),
"-rwx")` disjunct is subsumed: an owner-`rwx` regular file has `0o100`
set), or, failing that, if the `file` command reports an
executable/Mach-O/ELF format. -/
def fileIsExecutable (toolName : String) (f : FileEntry) : Bool :=
  strStartsWith (baseName f.path) toolName &&
    ((f.isRegularFile && (f.permBits &&& 0o111 != 0)) ||
      (match f.fileCmdOut with
       | none => false
       | some out =>
         strContainsSub (strLower out) "executable" ||
         strContainsSub (strLower out) "mach-o" ||
         strContainsSub (strLower out) "elf"))

/-- Embeds `findExecutables` (`extractor.go:269-321`) over the walked
file list: the qualifying paths, in walk order. -/
def findExecutables (tree : List FileEntry) (toolName : String) :
    List String :=
  (tree.filter (fileIsExecutable toolName)).map FileEntry.path

/-- Outcome of `ExtractArchive` + `os.Stat` (`extractor.go:22-31`): the
extracted path and whether it is a directory. -/
structure ExtractedInfo where
  path : String
  isDir : Bool
deriving DecidableEq, Repr

/-- Embeds the binary-discovery branch of `ExtractAndInstall`
(`extractor.go:36-46`): a directory is scanned by `findExecutables`
(`none` on an empty result, the `no binary found` error); a single file
is taken as the binary with no further check. -/
def chosenBinaries (src : String) (info : ExtractedInfo)
    (tree : List FileEntry) : Option (List String) :=
  if info.isDir then
    match findExecutables tree (extractToolNameFromPath src) with
    | [] => none
    | bs => some bs
  else some [info.path]

/-- Embeds `ExtractAndInstall` (`extractor.go:20-66`) end to end over the
oracle outcomes: `extracted = none` models an `ExtractArchive`/`os.Stat`
error. -/
def extractAndInstallFull (env : CopyEnv) (home src : String)
    (extracted : Option ExtractedInfo) (tree : List FileEntry) :
    Option String :=
  match extracted with
  | none => none
  | some info =>
    match chosenBinaries src info tree with
    | none => none
    | some bs => extractAndInstallResult env home bs

/-! ## The per-source installer `installTool`

Embeds `installTool` (`internal/installer/install.go:13-150`) and the
remainder of `downloadFromGitHub` (`internal/installer/github.go:32-143`)
with `installExecutable` and `getUserLocalBin` (companion installer
source).  Every external effect is an oracle field; the embedded
functions branch on the oracles exactly as the Go code branches on the
corresponding error values, and build the returned install paths with the
same `filepath.Join` / concatenation expressions.
-/

/-- Oracles for the external effects of `downloadFromGitHub`: the HTTP
release fetch and JSON decode (error or asset list), the `curl` download,
the `unzip`/`untarGz` extraction, the `findExecutable` search, the copy
to `/usr/local/bin` (`none` = success, `some isPerm` = failure classified
or not as permission-denied), and `getUserLocalBin` (the current user's
home directory plus the success of creating `~/bin`). -/
structure GithubEnv where
  releaseAssets : Except String (List Asset)
  curlOk : Bool
  unzipResult : Except String String
  untarGzResult : Except String String
  findExecResult : Option String
  sysCopyErr : Option Bool
  userHome : String
  userBinOk : Bool
  userCopyOk : Bool

/-- Embeds `installExecutable`: copy to `/usr/local/bin/<toolName>`; on a
permission-denied failure, fall back to `<home>/bin/<toolName>`; any other
failure is fatal. -/
def installExecutable (genv : GithubEnv) (toolName : String) :
    Except String String :=
  match genv.sysCopyErr with
  | none => Except.ok (pathJoin usrLocalBin toolName)
  | some isPerm =>
    if isPerm then
      if genv.userBinOk then
        if genv.userCopyOk then
          Except.ok (pathJoin (pathJoin genv.userHome "bin") toolName)
        else Except.error "copy to user local bin failed"
      else Except.error "failed to get or create user local bin"
    else Except.error "copy failed"

/-- Embeds `downloadFromGitHub` (`github.go:32-143`): fetch the release,
select an asset (see `selectAsset`), download it, dispatch extraction on
the asset-name suffix (note: on the original-case name, `github.go:115-
117`), find an executable in the extracted tree, and install it under its
basename. -/
def downloadFromGitHub (genv : GithubEnv) : Except String String :=
  match genv.releaseAssets with
  | Except.error e => Except.error e
  | Except.ok assets =>
    match selectAsset preferredPatterns assets with
    | none => Except.error "no matching asset found"
    | some asset =>
      if genv.curlOk then
        match
          (if strEndsWith asset.name ".zip" then genv.unzipResult
           else if strEndsWith asset.name ".tar.gz" ||
                   strEndsWith asset.name ".tgz" then genv.untarGzResult
           else Except.error "unsupported archive format") with
        | Except.error e => Except.error e
        | Except.ok _extractDir =>
          match genv.findExecResult with
          | none => Except.error "no executable file found"
          | some execPath => installExecutable genv (baseName execPath)
      else Except.error "failed to download asset"

/-- Oracles for the external effects of `installTool`, one field per
external call site of `install.go`. -/
structure InstallEnv where
  github : GithubEnv
  curlOk : Bool
  pkgInstallOk : Bool
  urlCopy : CopyEnv
  urlExtracted : Option ExtractedInfo
  urlTree : List FileEntry
  chmodOk : Bool
  brewOk : Bool
  goOk : Bool
  home : String
  rustupAddOk : Bool
  rustupShowOut : Option String
  rustupBinExists : Bool
  cargoBinMkdirOk : Bool
  symlinkOk : Bool

/-- Embeds `installTool` (`install.go:13-150`).  `rustupShowOut` is the
first whitespace field of the `rustup show active-toolchain` output
(`install.go:112-118`); `none` models the command failing. -/
def installTool (env : InstallEnv) (tool : Tool) : Bool × String :=
  match tool.source with
  | "github" =>
    match downloadFromGitHub env.github with
    | Except.error _ => (false, "")
    | Except.ok p => (true, p)
  | "url" =>
    if env.curlOk then
      if strEndsWith tool.url ".pkg" then
        if env.pkgInstallOk then (true, "/Applications") else (false, "")
      else
        match extractAndInstallFull env.urlCopy env.home
            ("/tmp/" ++ baseName tool.url) env.urlExtracted env.urlTree with
        | none => (false, "")
        | some asset => if env.chmodOk then (true, asset) else (false, "")
    else (false, "")
  | "brew" =>
    if env.brewOk then (true, "/opt/homebrew/bin/" ++ tool.name)
    else (false, "")
  | "go" =>
    if env.goOk then
      (true, pathJoin (pathJoin (pathJoin env.home "go") "bin") tool.name)
    else (false, "")
  | "rustup" =>
    if env.rustupAddOk then
      match env.rustupShowOut with
      | none => (false, "")
      | some _toolchain =>
        if env.rustupBinExists then
          if env.cargoBinMkdirOk then
            if env.symlinkOk then
              (true, pathJoin (pathJoin (pathJoin env.home ".cargo") "bin")
                tool.name)
            else (false, "")
          else (false, "")
        else (false, "")
    else (false, "")
  | _ => (false, "")

/-- The install oracle `SyncTools` consults, as produced by `installTool`
(`sync.go:38`). -/
def instOf (env : InstallEnv) (t : Tool) : Option String :=
  match installTool env t with
  | (true, p) => some p
  | (false, _) => none

/-! ## Concrete instances used by witnesses and counterexamples -/

/-- Copy oracle where the copy of `/t/b2` into `/usr/local/bin` fails
(permission denied) and every other copy succeeds. -/
def cexCopyEnv : CopyEnv :=
  { copyOk := fun b d => !(b = "/t/b2" && d = "/usr/local/bin"),
    mkdirHomeOk := true }

/-- Copy oracle where every copy succeeds. -/
def allOkCopyEnv : CopyEnv :=
  { copyOk := fun _ _ => true, mkdirHomeOk := true }

/-- GitHub oracle for scenarios that never reach the GitHub path. -/
def sampleGithubEnv : GithubEnv :=
  { releaseAssets := Except.error "unused", curlOk := false,
    unzipResult := Except.error "unused",
    untarGzResult := Except.error "unused",
    findExecResult := none, sysCopyErr := none,
    userHome := "/Users/dev", userBinOk := true, userCopyOk := true }

/-- Installer oracle where every external step succeeds. -/
def sampleEnv : InstallEnv :=
  { github := sampleGithubEnv, curlOk := true, pkgInstallOk := true,
    urlCopy := allOkCopyEnv, urlExtracted := none, urlTree := [],
    chmodOk := true, brewOk := true, goOk := true, home := "/Users/dev",
    rustupAddOk := true, rustupShowOut := some "stable",
    rustupBinExists := true, cargoBinMkdirOk := true, symlinkOk := true }

/-- A Homebrew-sourced tool spec. -/
def sampleTool : Tool :=
  { name := "rg", version := "14.0.0", source := "brew", url := "",
    repo := "", tag := "" }

/-! ## String and path lemmas -/

theorem str_append_sep_ne_empty (a b : String) : a ++ "/" ++ b ≠ "" := by
  intro hcontr
  have hlen := congrArg String.length hcontr
  rw [String.length_append, String.length_append] at hlen
  have h1 : ("/" : String).length = 1 := rfl
  have h0 : ("" : String).length = 0 := rfl
  omega

theorem pathJoin_ne_empty_left {a : String} (b : String) (h : a ≠ "") :
    pathJoin a b ≠ "" := by
  unfold pathJoin
  rw [if_neg h]
  by_cases hb : b = ""
  · rw [if_pos hb]; exact h
  · rw [if_neg hb]; exact str_append_sep_ne_empty a b

theorem pathJoin_ne_empty_right (a : String) {b : String} (h : b ≠ "") :
    pathJoin a b ≠ "" := by
  unfold pathJoin
  by_cases ha : a = ""
  · rw [if_pos ha]; exact h
  · rw [if_neg ha, if_neg h]
    exact str_append_sep_ne_empty a b

theorem str_append_ne_empty_left {a : String} (b : String) (h : a ≠ "") :
    a ++ b ≠ "" := by
  intro hcontr
  apply h
  have hlen := congrArg String.length hcontr
  rw [String.length_append] at hlen
  have h0 : ("" : String).length = 0 := rfl
  have ha : a.length = 0 := by omega
  cases a with
  | mk data =>
    cases data with
    | nil => rfl
    | cons c cs =>
      have : (String.mk (c :: cs)).length = cs.length + 1 := by
        simp [String.length]
      omega

/-! ### Association-map lemmas -/

theorem lookupName_setName_self (n : String) (v : ToolState) (m : ToolMap) :
    lookupName n (setName n v m) = some v := by
  induction m with
  | nil => simp [setName, lookupName]
  | cons e rest ih =>
    by_cases h : e.1 = n
    · simp [setName, h, lookupName]
    · simp [setName, h, lookupName, ih]

theorem lookupName_setName_ne {n k : String} (h : n ≠ k) (v : ToolState)
    (m : ToolMap) : lookupName n (setName k v m) = lookupName n m := by
  induction m with
  | nil => simp [setName, lookupName, Ne.symm h]
  | cons e rest ih =>
    by_cases hk : e.1 = k
    · simp [setName, hk, lookupName, Ne.symm h, hk ▸ (Ne.symm h)]
    · simp [setName, hk, lookupName, ih]

theorem lookupName_delName_self (n : String) (m : ToolMap) :
    lookupName n (delName n m) = none := by
  induction m with
  | nil => simp [delName, lookupName]
  | cons e rest ih =>
    by_cases h : e.1 = n
    · simp [delName, h, ih]
    · simp [delName, h, lookupName, ih]

theorem lookupName_delName_ne {n k : String} (h : n ≠ k) (m : ToolMap) :
    lookupName n (delName k m) = lookupName n m := by
  induction m with
  | nil => simp [delName]
  | cons e rest ih =>
    by_cases hk : e.1 = k
    · have hkn : ¬e.1 = n := fun hc => h (hc ▸ hk)
      simp [delName, hk, ih, lookupName, hkn, Ne.symm h]
    · simp [delName, hk, lookupName, ih]

theorem mem_delName {e : String × ToolState} {n : String} {m : ToolMap} :
    e ∈ delName n m ↔ e ∈ m ∧ e.1 ≠ n := by
  induction m with
  | nil => simp [delName]
  | cons f rest ih =>
    by_cases h : f.1 = n
    · simp only [delName, if_pos h, ih, List.mem_cons]
      constructor
      · rintro ⟨he, hne⟩; exact ⟨Or.inr he, hne⟩
      · rintro ⟨he | he, hne⟩
        · exact absurd (he ▸ h) hne
        · exact ⟨he, hne⟩
    · simp only [delName, if_neg h, List.mem_cons, ih]
      constructor
      · rintro (rfl | ⟨he, hne⟩)
        · exact ⟨Or.inl rfl, h⟩
        · exact ⟨Or.inr he, hne⟩
      · rintro ⟨rfl | he, hne⟩
        · exact Or.inl rfl
        · exact Or.inr ⟨he, hne⟩

theorem mem_setName_ne {n k : String} {v w : ToolState} {m : ToolMap}
    (h : n ≠ k) : (n, v) ∈ setName k w m ↔ (n, v) ∈ m := by
  induction m with
  | nil => simp [setName, h]
  | cons e rest ih =>
    by_cases hk : e.1 = k
    · simp only [setName, if_pos hk, List.mem_cons]
      constructor
      · rintro (he | he)
        · rw [Prod.mk.injEq] at he
          exact absurd he.1 h
        · exact Or.inr he
      · rintro (rfl | he)
        · exact absurd hk h
        · exact Or.inr he
    · simp only [setName, if_neg hk, List.mem_cons, ih]

theorem name_mem_keysOf {n : String} {v : ToolState} {m : ToolMap}
    (h : (n, v) ∈ m) : n ∈ keysOf m := by
  simpa [keysOf] using List.mem_map_of_mem Prod.fst h

theorem keysOf_setName_subset (n : String) (v : ToolState) (m : ToolMap) :
    keysOf (setName n v m) ⊆ n :: keysOf m := by
  induction m with
  | nil =>
    intro x hx
    simp only [setName, keysOf, List.map_cons, List.map_nil] at hx
    exact List.mem_cons.mpr (Or.inl (List.mem_singleton.mp hx))
  | cons e rest ih =>
    intro x hx
    by_cases h : e.1 = n
    · simp only [setName, if_pos h, keysOf, List.map_cons, List.mem_cons] at hx ⊢
      rcases hx with rfl | hx
      · exact Or.inl rfl
      · exact Or.inr (Or.inr hx)
    · simp only [setName, if_neg h, keysOf, List.map_cons, List.mem_cons] at hx ⊢
      rcases hx with rfl | hx
      · exact Or.inr (Or.inl rfl)
      · rcases List.mem_cons.mp (ih hx) with rfl | hx'
        · exact Or.inl rfl
        · exact Or.inr (Or.inr hx')

theorem nodup_keysOf_setName {m : ToolMap} (h : (keysOf m).Nodup)
    (n : String) (v : ToolState) : (keysOf (setName n v m)).Nodup := by
  induction m with
  | nil => simp [setName, keysOf]
  | cons e rest ih =>
    rw [keysOf, List.map_cons, List.nodup_cons] at h
    by_cases he : e.1 = n
    · simp only [setName, if_pos he, keysOf, List.map_cons, List.nodup_cons]
      exact ⟨he ▸ h.1, h.2⟩
    · have hrec := ih h.2
      simp only [setName, if_neg he, keysOf, List.map_cons, List.nodup_cons]
      refine ⟨fun hmem => ?_, hrec⟩
      rcases List.mem_cons.mp (keysOf_setName_subset n v rest hmem) with rfl | hmem'
      · exact he rfl
      · exact h.1 hmem'

theorem keysOf_delName_subset (n : String) (m : ToolMap) :
    keysOf (delName n m) ⊆ keysOf m := by
  intro x hx
  rcases List.mem_map.mp hx with ⟨e, he, rfl⟩
  exact List.mem_map_of_mem Prod.fst (mem_delName.mp he).1

theorem nodup_keysOf_delName {m : ToolMap} (h : (keysOf m).Nodup)
    (n : String) : (keysOf (delName n m)).Nodup := by
  induction m with
  | nil => simp [delName, keysOf]
  | cons e rest ih =>
    rw [keysOf, List.map_cons, List.nodup_cons] at h
    by_cases he : e.1 = n
    · simpa [delName, he] using ih h.2
    · simp only [delName, if_neg he, keysOf, List.map_cons, List.nodup_cons]
      exact ⟨fun hmem => h.1 (keysOf_delName_subset n rest hmem), ih h.2⟩

theorem lookupName_eq_some_of_mem {m : ToolMap} (hnd : (keysOf m).Nodup)
    {n : String} {v : ToolState} (hm : (n, v) ∈ m) :
    lookupName n m = some v := by
  induction m with
  | nil => simp at hm
  | cons e rest ih =>
    rw [keysOf, List.map_cons, List.nodup_cons] at hnd
    rcases List.mem_cons.mp hm with rfl | hm'
    · simp [lookupName]
    · by_cases he : e.1 = n
      · exact absurd (he ▸ name_mem_keysOf hm') hnd.1
      · simpa [lookupName, he] using ih hnd.2 hm'

theorem mem_of_lookupName_eq_some {n : String} {v : ToolState} {m : ToolMap}
    (h : lookupName n m = some v) : (n, v) ∈ m := by
  induction m with
  | nil => simp [lookupName] at h
  | cons e rest ih =>
    by_cases he : e.1 = n
    · obtain ⟨k, w⟩ := e
      rw [lookupName, if_pos he] at h
      obtain rfl : w = v := Option.some.inj h
      have hk : k = n := he
      subst hk
      exact List.mem_cons_self _ _
    · rw [lookupName, if_neg he] at h
      exact List.mem_cons.mpr (Or.inr (ih h))

theorem lookupName_isSome_of_mem {n : String} {v : ToolState} {m : ToolMap}
    (h : (n, v) ∈ m) : ∃ w, lookupName n m = some w := by
  induction m with
  | nil => simp at h
  | cons e rest ih =>
    by_cases he : e.1 = n
    · exact ⟨e.2, by rw [lookupName, if_pos he]⟩
    · rcases List.mem_cons.mp h with rfl | h'
      · exact absurd rfl he
      · simpa [lookupName, he] using ih h'

/-! ### Fold lemmas for the install phase -/

theorem lookup_foldl_applyInstall_of_not_written {n : String} :
    ∀ (l : List SyncAction) (m : ToolMap),
      (∀ rec, SyncAction.installed n rec ∉ l) →
      lookupName n (l.foldl applyInstall m) = lookupName n m := by
  intro l
  induction l with
  | nil => intro m _; rfl
  | cons a l ih =>
    intro m hnw
    rw [List.foldl_cons]
    have htail : ∀ rec, SyncAction.installed n rec ∉ l :=
      fun rec hmem => hnw rec (List.mem_cons.mpr (Or.inr hmem))
    rw [ih (applyInstall m a) htail]
    cases a with
    | installed k rec =>
      have hk : k ≠ n := by
        intro hkn
        exact hnw rec (hkn ▸ List.mem_cons_self _ _)
      exact lookupName_setName_ne (Ne.symm hk) rec m
    | installFailed k => rfl
    | skipped k => rfl
    | uninstalled k => rfl
    | uninstallFailed k => rfl

theorem mem_foldl_applyInstall_of_not_written {n : String} {v : ToolState} :
    ∀ (l : List SyncAction) (m : ToolMap),
      (∀ rec, SyncAction.installed n rec ∉ l) →
      ((n, v) ∈ l.foldl applyInstall m ↔ (n, v) ∈ m) := by
  intro l
  induction l with
  | nil => intro m _; rfl
  | cons a l ih =>
    intro m hnw
    rw [List.foldl_cons]
    have htail : ∀ rec, SyncAction.installed n rec ∉ l :=
      fun rec hmem => hnw rec (List.mem_cons.mpr (Or.inr hmem))
    rw [ih (applyInstall m a) htail]
    cases a with
    | installed k rec =>
      have hk : n ≠ k := by
        intro hkn
        exact hnw rec (hkn ▸ List.mem_cons_self _ _)
      exact mem_setName_ne hk
    | installFailed k => rfl
    | skipped k => rfl
    | uninstalled k => rfl
    | uninstallFailed k => rfl

theorem lookup_foldl_applyInstall_last_write {n : String} {rec : ToolState}
    (l₁ l₂ : List SyncAction) (m : ToolMap)
    (h₂ : ∀ rec', SyncAction.installed n rec' ∉ l₂) :
    lookupName n
      ((l₁ ++ SyncAction.installed n rec :: l₂).foldl applyInstall m)
      = some rec := by
  rw [List.foldl_append, List.foldl_cons]
  rw [lookup_foldl_applyInstall_of_not_written l₂ _ h₂]
  exact lookupName_setName_self n rec _

theorem nodup_keys_foldl_applyInstall :
    ∀ (l : List SyncAction) (m : ToolMap),
      (keysOf m).Nodup → (keysOf (l.foldl applyInstall m)).Nodup := by
  intro l
  induction l with
  | nil => intro m h; exact h
  | cons a l ih =>
    intro m h
    rw [List.foldl_cons]
    apply ih
    cases a with
    | installed k rec => exact nodup_keysOf_setName h k rec
    | installFailed k => exact h
    | skipped k => exact h
    | uninstalled k => exact h
    | uninstallFailed k => exact h

theorem lookup_foldl_applyInstall_cases {n : String} {rec : ToolState} :
    ∀ (l : List SyncAction) (m : ToolMap),
      lookupName n (l.foldl applyInstall m) = some rec →
      SyncAction.installed n rec ∈ l ∨ lookupName n m = some rec := by
  intro l
  induction l with
  | nil => intro m h; exact Or.inr h
  | cons a l ih =>
    intro m h
    rw [List.foldl_cons] at h
    rcases ih (applyInstall m a) h with hmem | hbase
    · exact Or.inl (List.mem_cons.mpr (Or.inr hmem))
    · cases a with
      | installed k r =>
        simp only [applyInstall] at hbase
        by_cases hk : k = n
        · subst hk
          rw [lookupName_setName_self] at hbase
          obtain rfl : r = rec := Option.some.inj hbase
          exact Or.inl (List.mem_cons_self _ _)
        · rw [lookupName_setName_ne (Ne.symm hk)] at hbase
          exact Or.inr hbase
      | installFailed k => exact Or.inr hbase
      | skipped k => exact Or.inr hbase
      | uninstalled k => exact Or.inr hbase
      | uninstallFailed k => exact Or.inr hbase

/-! ### Fold lemmas for the removal phase -/

theorem lookup_foldl_applyRemoval_of_not_removed {n : String} :
    ∀ (l : List SyncAction) (m : ToolMap),
      SyncAction.uninstalled n ∉ l →
      lookupName n (l.foldl applyRemoval m) = lookupName n m := by
  intro l
  induction l with
  | nil => intro m _; rfl
  | cons a l ih =>
    intro m hnr
    rw [List.foldl_cons]
    have htail : SyncAction.uninstalled n ∉ l :=
      fun hmem => hnr (List.mem_cons.mpr (Or.inr hmem))
    rw [ih (applyRemoval m a) htail]
    cases a with
    | uninstalled k =>
      have hk : n ≠ k := by
        intro hkn
        exact hnr (hkn ▸ List.mem_cons_self _ _)
      exact lookupName_delName_ne hk m
    | installed k rec => rfl
    | installFailed k => rfl
    | skipped k => rfl
    | uninstallFailed k => rfl

theorem lookup_foldl_applyRemoval_none {n : String} :
    ∀ (l : List SyncAction) (m : ToolMap),
      lookupName n m = none →
      lookupName n (l.foldl applyRemoval m) = none := by
  intro l
  induction l with
  | nil => intro m h; exact h
  | cons a l ih =>
    intro m h
    rw [List.foldl_cons]
    apply ih
    cases a with
    | uninstalled k =>
      simp only [applyRemoval]
      by_cases hk : n = k
      · subst hk; exact lookupName_delName_self n m
      · rw [lookupName_delName_ne hk m]; exact h
    | installed k rec => exact h
    | installFailed k => exact h
    | skipped k => exact h
    | uninstallFailed k => exact h

theorem lookup_foldl_applyRemoval_removed {n : String} :
    ∀ (l : List SyncAction) (m : ToolMap),
      SyncAction.uninstalled n ∈ l →
      lookupName n (l.foldl applyRemoval m) = none := by
  intro l
  induction l with
  | nil => intro m h; simp at h
  | cons a l ih =>
    intro m h
    rw [List.foldl_cons]
    rcases List.mem_cons.mp h with heq | hmem
    · subst heq
      exact lookup_foldl_applyRemoval_none l _ (lookupName_delName_self n m)
    · exact ih _ hmem

theorem mem_foldl_applyRemoval {e : String × ToolState} :
    ∀ (l : List SyncAction) (m : ToolMap),
      e ∈ l.foldl applyRemoval m → e ∈ m := by
  intro l
  induction l with
  | nil => intro m h; exact h
  | cons a l ih =>
    intro m h
    rw [List.foldl_cons] at h
    have h' := ih _ h
    cases a with
    | uninstalled k => exact (mem_delName.mp h').1
    | installed k rec => exact h'
    | installFailed k => exact h'
    | skipped k => exact h'
    | uninstallFailed k => exact h'

/-! ### Log characterizations and phase lemmas -/

theorem installAction_name (inst : Tool → Option String) (st0 : ToolMap)
    (t : Tool) : (installAction inst st0 t).name = t.name := by
  unfold installAction
  split
  · cases inst t <;> rfl
  · rfl

theorem installed_mem_installLog {inst : Tool → Option String}
    {st0 : ToolMap} {tools : List Tool} {n : String} {rec : ToolState}
    (h : SyncAction.installed n rec ∈ installLog inst tools st0) :
    ∃ t ∈ tools, t.name = n ∧ needsInstall t st0 = true ∧
      inst t = some rec.installPath ∧ rec = mkRec t rec.installPath := by
  rcases List.mem_map.mp h with ⟨t, ht, ha⟩
  refine ⟨t, ht, ?_⟩
  unfold installAction at ha
  by_cases hni : needsInstall t st0 = true
  · rw [if_pos hni] at ha
    cases hp : inst t with
    | none => rw [hp] at ha; cases ha
    | some p =>
      rw [hp] at ha
      cases ha
      exact ⟨rfl, hni, rfl, rfl⟩
  · rw [if_neg hni] at ha
    cases ha

theorem not_installed_mem_installLog_of_not_needs {inst : Tool → Option String}
    {st0 : ToolMap} {tools : List Tool} {t : Tool}
    (hnd : (tools.map Tool.name).Nodup) (ht : t ∈ tools)
    (hni : needsInstall t st0 = false) :
    ∀ rec, SyncAction.installed t.name rec ∉ installLog inst tools st0 := by
  intro rec hmem
  rcases installed_mem_installLog hmem with ⟨u, hu, hname, hneeds, _, _⟩
  have : u = t := List.inj_on_of_nodup_map hnd hu ht hname
  subst this
  rw [hni] at hneeds
  cases hneeds

theorem removalAction_eq_some {uninst : String → ToolState → Bool}
    {desired : List String} {e : String × ToolState} {a : SyncAction}
    (h : removalAction uninst desired e = some a) :
    e.1 ∉ desired ∧
      ((uninst e.1 e.2 = true ∧ a = SyncAction.uninstalled e.1) ∨
       (uninst e.1 e.2 = false ∧ a = SyncAction.uninstallFailed e.1)) := by
  unfold removalAction at h
  by_cases hd : e.1 ∈ desired
  · rw [if_pos hd] at h; cases h
  · rw [if_neg hd] at h
    refine ⟨hd, ?_⟩
    by_cases hu : uninst e.1 e.2 = true
    · rw [if_pos hu] at h
      exact Or.inl ⟨hu, (Option.some.inj h).symm⟩
    · rw [if_neg hu] at h
      exact Or.inr ⟨Bool.not_eq_true _ ▸ hu, (Option.some.inj h).symm⟩

theorem mem_removalLog {uninst : String → ToolState → Bool}
    {desired : List String} {st1 : ToolMap} {a : SyncAction}
    (h : a ∈ removalLog uninst desired st1) :
    ∃ e ∈ st1, removalAction uninst desired e = some a :=
  List.mem_filterMap.mp h

theorem removalLog_no_installed {uninst : String → ToolState → Bool}
    {desired : List String} {st1 : ToolMap} {n : String} {rec : ToolState} :
    SyncAction.installed n rec ∉ removalLog uninst desired st1 := by
  intro h
  rcases mem_removalLog h with ⟨e, _, ha⟩
  rcases (removalAction_eq_some ha).2 with ⟨_, hc⟩ | ⟨_, hc⟩ <;> cases hc

theorem removalLog_no_installFailed {uninst : String → ToolState → Bool}
    {desired : List String} {st1 : ToolMap} {n : String} :
    SyncAction.installFailed n ∉ removalLog uninst desired st1 := by
  intro h
  rcases mem_removalLog h with ⟨e, _, ha⟩
  rcases (removalAction_eq_some ha).2 with ⟨_, hc⟩ | ⟨_, hc⟩ <;> cases hc

theorem removalLog_no_skipped {uninst : String → ToolState → Bool}
    {desired : List String} {st1 : ToolMap} {n : String} :
    SyncAction.skipped n ∉ removalLog uninst desired st1 := by
  intro h
  rcases mem_removalLog h with ⟨e, _, ha⟩
  rcases (removalAction_eq_some ha).2 with ⟨_, hc⟩ | ⟨_, hc⟩ <;> cases hc

theorem uninstalled_mem_removalLog_name {uninst : String → ToolState → Bool}
    {desired : List String} {st1 : ToolMap} {n : String}
    (h : SyncAction.uninstalled n ∈ removalLog uninst desired st1) :
    n ∉ desired ∧ ∃ ts, (n, ts) ∈ st1 ∧ uninst n ts = true := by
  rcases mem_removalLog h with ⟨e, he, ha⟩
  rcases removalAction_eq_some ha with ⟨hd, ⟨hu, hc⟩ | ⟨_, hc⟩⟩
  · cases hc
    exact ⟨hd, e.2, by simpa using he, hu⟩
  · cases hc

theorem installLog_no_uninstalled {inst : Tool → Option String}
    {st0 : ToolMap} {tools : List Tool} {n : String} :
    SyncAction.uninstalled n ∉ installLog inst tools st0 := by
  intro h
  rcases List.mem_map.mp h with ⟨t, _, ha⟩
  unfold installAction at ha
  by_cases hni : needsInstall t st0 = true
  · rw [if_pos hni] at ha
    cases hp : inst t with
    | none => rw [hp] at ha; cases ha
    | some p => rw [hp] at ha; cases ha
  · rw [if_neg hni] at ha; cases ha

theorem installLog_no_uninstallFailed {inst : Tool → Option String}
    {st0 : ToolMap} {tools : List Tool} {n : String} :
    SyncAction.uninstallFailed n ∉ installLog inst tools st0 := by
  intro h
  rcases List.mem_map.mp h with ⟨t, _, ha⟩
  unfold installAction at ha
  by_cases hni : needsInstall t st0 = true
  · rw [if_pos hni] at ha
    cases hp : inst t with
    | none => rw [hp] at ha; cases ha
    | some p => rw [hp] at ha; cases ha
  · rw [if_neg hni] at ha; cases ha

/-- Tools whose name is not among the desired names are untouched by the
install phase. -/
theorem lookup_installPhase_of_not_desired {inst : Tool → Option String}
    {tools : List Tool} {st : ToolMap} {n : String}
    (h : n ∉ tools.map Tool.name) :
    lookupName n (installPhase inst tools st) = lookupName n st := by
  apply lookup_foldl_applyInstall_of_not_written
  intro rec hmem
  rcases installed_mem_installLog hmem with ⟨t, ht, hname, _, _, _⟩
  exact h (hname ▸ List.mem_map_of_mem Tool.name ht)

theorem mem_installPhase_of_not_desired {inst : Tool → Option String}
    {tools : List Tool} {st : ToolMap} {n : String} {v : ToolState}
    (h : n ∉ tools.map Tool.name) :
    ((n, v) ∈ installPhase inst tools st ↔ (n, v) ∈ st) := by
  apply mem_foldl_applyInstall_of_not_written
  intro rec hmem
  rcases installed_mem_installLog hmem with ⟨t, ht, hname, _, _, _⟩
  exact h (hname ▸ List.mem_map_of_mem Tool.name ht)

/-- A scheduled tool whose install succeeds ends up recorded with the
desired version, the returned path, and the origin flag set. -/
theorem lookup_installPhase_of_success {inst : Tool → Option String}
    {tools : List Tool} {st : ToolMap} {t : Tool} {p : String}
    (hnd : (tools.map Tool.name).Nodup) (ht : t ∈ tools)
    (hni : needsInstall t st = true) (hp : inst t = some p) :
    lookupName t.name (installPhase inst tools st) = some (mkRec t p) := by
  rcases List.append_of_mem ht with ⟨l₁, l₂, rfl⟩
  unfold installPhase installLog
  rw [List.map_append, List.map_cons]
  have hact : installAction inst st t = SyncAction.installed t.name (mkRec t p) := by
    unfold installAction
    rw [if_pos hni, hp]
  rw [hact]
  apply lookup_foldl_applyInstall_last_write
  intro rec' hmem
  rcases installed_mem_installLog hmem with ⟨u, hu, hname, _, _, _⟩
  have hnodup := hnd
  rw [List.map_append, List.map_cons, List.nodup_append] at hnodup
  rcases hnodup with ⟨_, hn2, _⟩
  rw [List.nodup_cons] at hn2
  exact hn2.1 (hname ▸ List.mem_map_of_mem Tool.name hu)

/-- A tool that is already current is untouched by the install phase. -/
theorem lookup_installPhase_of_current {inst : Tool → Option String}
    {tools : List Tool} {st : ToolMap} {t : Tool}
    (hnd : (tools.map Tool.name).Nodup) (ht : t ∈ tools)
    (hni : needsInstall t st = false) :
    lookupName t.name (installPhase inst tools st) = lookupName t.name st :=
  lookup_foldl_applyInstall_of_not_written _ _
    (not_installed_mem_installLog_of_not_needs hnd ht hni)

/-- Names still desired survive the removal phase untouched. -/
theorem lookup_removalPhase_of_desired {uninst : String → ToolState → Bool}
    {desired : List String} {st1 : ToolMap} {n : String} (h : n ∈ desired) :
    lookupName n (removalPhase uninst desired st1) = lookupName n st1 := by
  apply lookup_foldl_applyRemoval_of_not_removed
  intro hmem
  exact (uninstalled_mem_removalLog_name hmem).1 h

/-- A stale entry whose uninstall succeeds is gone after the removal
phase. -/
theorem lookup_removalPhase_of_uninstall_success
    {uninst : String → ToolState → Bool} {desired : List String}
    {st1 : ToolMap} {n : String} {ts : ToolState}
    (hmem : (n, ts) ∈ st1) (hnd : n ∉ desired) (hu : uninst n ts = true) :
    lookupName n (removalPhase uninst desired st1) = none := by
  apply lookup_foldl_applyRemoval_removed
  apply List.mem_filterMap.mpr
  refine ⟨(n, ts), hmem, ?_⟩
  unfold removalAction
  rw [if_neg hnd, if_pos hu]

/-- A stale entry whose uninstall fails is retained unchanged. -/
theorem lookup_removalPhase_of_uninstall_failure
    {uninst : String → ToolState → Bool} {desired : List String}
    {st1 : ToolMap} {n : String} {ts : ToolState}
    (hnodup : (keysOf st1).Nodup) (hmem : (n, ts) ∈ st1)
    (hu : uninst n ts = false) :
    lookupName n (removalPhase uninst desired st1) = some ts := by
  unfold removalPhase
  rw [lookup_foldl_applyRemoval_of_not_removed]
  · exact lookupName_eq_some_of_mem hnodup hmem
  · intro hr
    rcases uninstalled_mem_removalLog_name hr with ⟨_, ts', hmem', hu'⟩
    have h1 := lookupName_eq_some_of_mem hnodup hmem
    have h2 := lookupName_eq_some_of_mem hnodup hmem'
    rw [h1] at h2
    obtain rfl : ts = ts' := Option.some.inj h2
    rw [hu] at hu'
    cases hu'

/-! ## Helper lemmas for the claim theorems -/

theorem topLevel_foldl_of_ne_empty :
    ∀ (entries : List String) (acc : String), acc ≠ "" →
      entries.foldl
        (fun acc name => if acc = "" then firstSegment name else acc) acc
        = acc := by
  intro entries
  induction entries with
  | nil => intro acc _; rfl
  | cons e rest ih =>
    intro acc hacc
    rw [List.foldl_cons, if_neg hacc]
    exact ih acc hacc

theorem needsInstall_eq_true_iff (t : Tool) (st : ToolMap) :
    needsInstall t st = true ↔
      lookupName t.name st = none ∨
        ∃ cur, lookupName t.name st = some cur ∧ cur.version ≠ t.version := by
  unfold needsInstall
  cases h : lookupName t.name st with
  | none => simp
  | some cur =>
    by_cases hv : cur.version = t.version
    · simp [hv]
    · simp [hv]

theorem needsInstall_eq_false_iff (t : Tool) (st : ToolMap) :
    needsInstall t st = false ↔
      ∃ cur, lookupName t.name st = some cur ∧ cur.version = t.version := by
  unfold needsInstall
  cases h : lookupName t.name st with
  | none => simp
  | some cur =>
    by_cases hv : cur.version = t.version
    · simp [hv]
    · simp [hv]

theorem installFailed_mem_installLog {inst : Tool → Option String}
    {st0 : ToolMap} {tools : List Tool} {n : String}
    (h : SyncAction.installFailed n ∈ installLog inst tools st0) :
    ∃ t ∈ tools, t.name = n ∧ needsInstall t st0 = true ∧ inst t = none := by
  rcases List.mem_map.mp h with ⟨t, ht, ha⟩
  refine ⟨t, ht, ?_⟩
  unfold installAction at ha
  by_cases hni : needsInstall t st0 = true
  · rw [if_pos hni] at ha
    cases hp : inst t with
    | none => rw [hp] at ha; cases ha; exact ⟨rfl, hni, rfl⟩
    | some p => rw [hp] at ha; cases ha
  · rw [if_neg hni] at ha
    cases ha

theorem lookup_delName_some {n k : String} {rec : ToolState} {m : ToolMap}
    (h : lookupName n (delName k m) = some rec) :
    lookupName n m = some rec := by
  by_cases hk : n = k
  · subst hk
    rw [lookupName_delName_self] at h
    cases h
  · rwa [lookupName_delName_ne hk] at h

theorem lookup_foldl_applyRemoval_some {n : String} {rec : ToolState} :
    ∀ (l : List SyncAction) (m : ToolMap),
      lookupName n (l.foldl applyRemoval m) = some rec →
      lookupName n m = some rec := by
  intro l
  induction l with
  | nil => intro m h; exact h
  | cons a l ih =>
    intro m h
    rw [List.foldl_cons] at h
    have h' := ih _ h
    cases a with
    | uninstalled k => exact lookup_delName_some h'
    | installed k r => exact h'
    | installFailed k => exact h'
    | skipped k => exact h'
    | uninstallFailed k => exact h'

theorem foldl_applyInstall_of_no_writes :
    ∀ (l : List SyncAction) (m : ToolMap),
      (∀ a ∈ l, ∀ n rec, a ≠ SyncAction.installed n rec) →
      l.foldl applyInstall m = m := by
  intro l
  induction l with
  | nil => intro m _; rfl
  | cons a l ih =>
    intro m h
    rw [List.foldl_cons]
    have hm : applyInstall m a = m := by
      cases a with
      | installed k rec =>
        exact absurd rfl (h _ (List.mem_cons_self _ _) k rec)
      | installFailed k => rfl
      | skipped k => rfl
      | uninstalled k => rfl
      | uninstallFailed k => rfl
    rw [hm]
    exact ih m (fun a ha => h a (List.mem_cons.mpr (Or.inr ha)))

/-! ## Claim C7 -/

/-- C7.  For every input, `LoadState` returns a `State` whose `Tools` and
`Settings` maps are both non-nil; a missing/unreadable file and a corrupt
JSON document (zero-valued decode, i.e. both fields nil) both yield empty
initialized maps rather than an error. -/
theorem loadState_maps_initialized (r : Option StateFile) :
    (loadState r).tools.isSome = true ∧
    (loadState r).settings.isSome = true ∧
    loadState none = { tools := some [], settings := some [] } ∧
    loadState (some { tools := none, settings := none })
      = { tools := some [], settings := some [] } := by
  rcases r with _ | ⟨t, s⟩
  · exact ⟨rfl, rfl, rfl, rfl⟩
  · rcases t with _ | m <;> rcases s with _ | m' <;> exact ⟨rfl, rfl, rfl, rfl⟩

/-! ## Claim C8 -/

/-- C8 counterexample.  For the archive entry list `["a/x", "b/y"]` (two
distinct top-level names), the recorded top-level entry is `"a"`, the
first entry's first segment — not the last-seen entry's first segment
`"b"` as claimed. -/
theorem topLevel_last_seen_counterexample :
    topLevelOf ["a/x", "b/y"] = "a" ∧
    firstSegment "a/x" = "a" ∧
    firstSegment "b/y" = "b" ∧
    topLevelOf ["a/x", "b/y"] ≠ firstSegment "b/y" ∧
    extractionRoot "/tmp" ["a/x", "b/y"] = "/tmp/a" := by
  refine ⟨by decide, by decide, by decide, by decide, by decide⟩

/-- C8 amended.  The recorded top-level entry is the first path segment of
the first-seen entry whose first segment is non-empty (first wins; for an
archive with several distinct top-level names the earliest entry's segment
is kept, later entries never overwrite it). -/
theorem topLevel_first_seen (entries : List String) :
    topLevelOf entries = specTopLevelFirstSeen entries := by
  induction entries with
  | nil => rfl
  | cons e rest ih =>
    unfold topLevelOf specTopLevelFirstSeen
    rw [List.foldl_cons, if_pos rfl]
    by_cases h : firstSegment e = ""
    · rw [if_pos h, h]
      exact ih
    · rw [if_neg h]
      exact topLevel_foldl_of_ne_empty rest _ h

theorem uninstallFailed_mem_removalLog_name {uninst : String → ToolState → Bool}
    {desired : List String} {st1 : ToolMap} {n : String}
    (h : SyncAction.uninstallFailed n ∈ removalLog uninst desired st1) :
    n ∉ desired ∧ ∃ ts, (n, ts) ∈ st1 ∧ uninst n ts = false := by
  rcases mem_removalLog h with ⟨e, he, ha⟩
  rcases removalAction_eq_some ha with ⟨hd, ⟨_, hc⟩ | ⟨hu, hc⟩⟩
  · cases hc
  · cases hc
    exact ⟨hd, e.2, by simpa using he, hu⟩

/-! ## Claim C4 -/

/-- C4.  The Synchronizer schedules an install attempt for a declared tool
iff its name is absent from the state or the recorded version differs from
the desired version as plain strings; when they are equal the tool is a
no-op: the log records only a skip for it, never an install or uninstall
action. -/
theorem syncTools_schedule_iff (inst : Tool → Option String)
    (uninst : String → ToolState → Bool) (tools : List Tool) (st : ToolMap)
    (t : Tool) (hnd : (tools.map Tool.name).Nodup) (ht : t ∈ tools) :
    (((∃ rec, SyncAction.installed t.name rec
          ∈ (syncTools inst uninst tools st).2) ∨
        SyncAction.installFailed t.name ∈ (syncTools inst uninst tools st).2)
      ↔ (lookupName t.name st = none ∨
          ∃ cur, lookupName t.name st = some cur ∧
            cur.version ≠ t.version)) ∧
    ((∃ cur, lookupName t.name st = some cur ∧ cur.version = t.version) →
      SyncAction.skipped t.name ∈ (syncTools inst uninst tools st).2 ∧
      (∀ rec, SyncAction.installed t.name rec
          ∉ (syncTools inst uninst tools st).2) ∧
      SyncAction.installFailed t.name ∉ (syncTools inst uninst tools st).2 ∧
      SyncAction.uninstalled t.name ∉ (syncTools inst uninst tools st).2 ∧
      SyncAction.uninstallFailed t.name
          ∉ (syncTools inst uninst tools st).2) := by
  have hdesired : t.name ∈ tools.map Tool.name := List.mem_map_of_mem Tool.name ht
  constructor
  · constructor
    · rintro (⟨rec, hmem⟩ | hmem) <;>
        rcases List.mem_append.mp hmem with hmem' | hmem'
      · rcases installed_mem_installLog hmem' with ⟨u, hu, hname, hneeds, _, _⟩
        have heq : u = t := List.inj_on_of_nodup_map hnd hu ht hname
        rw [heq] at hneeds
        exact (needsInstall_eq_true_iff t st).mp hneeds
      · exact absurd hmem' removalLog_no_installed
      · rcases installFailed_mem_installLog hmem' with ⟨u, hu, hname, hneeds, _⟩
        have heq : u = t := List.inj_on_of_nodup_map hnd hu ht hname
        rw [heq] at hneeds
        exact (needsInstall_eq_true_iff t st).mp hneeds
      · exact absurd hmem' removalLog_no_installFailed
    · intro hrhs
      have hneeds : needsInstall t st = true :=
        (needsInstall_eq_true_iff t st).mpr hrhs
      have hact : installAction inst st t ∈ installLog inst tools st :=
        List.mem_map_of_mem _ ht
      unfold installAction at hact
      rw [if_pos hneeds] at hact
      cases hp : inst t with
      | some p =>
        rw [hp] at hact
        exact Or.inl ⟨mkRec t p, List.mem_append.mpr (Or.inl hact)⟩
      | none =>
        rw [hp] at hact
        exact Or.inr (List.mem_append.mpr (Or.inl hact))
  · intro hcur
    have hni : needsInstall t st = false :=
      (needsInstall_eq_false_iff t st).mpr hcur
    refine ⟨?_, ?_, ?_, ?_, ?_⟩
    · have hact : installAction inst st t ∈ installLog inst tools st :=
        List.mem_map_of_mem _ ht
      unfold installAction at hact
      rw [if_neg (by rw [hni]; exact Bool.false_ne_true)] at hact
      exact List.mem_append.mpr (Or.inl hact)
    · intro rec hmem
      rcases List.mem_append.mp hmem with hmem' | hmem'
      · exact not_installed_mem_installLog_of_not_needs hnd ht hni rec hmem'
      · exact removalLog_no_installed hmem'
    · intro hmem
      rcases List.mem_append.mp hmem with hmem' | hmem'
      · rcases installFailed_mem_installLog hmem' with ⟨u, hu, hname, hneeds, _⟩
        have : u = t := List.inj_on_of_nodup_map hnd hu ht hname
        subst this
        rw [hni] at hneeds
        cases hneeds
      · exact removalLog_no_installFailed hmem'
    · intro hmem
      rcases List.mem_append.mp hmem with hmem' | hmem'
      · exact installLog_no_uninstalled hmem'
      · exact (uninstalled_mem_removalLog_name hmem').1 hdesired
    · intro hmem
      rcases List.mem_append.mp hmem with hmem' | hmem'
      · exact installLog_no_uninstallFailed hmem'
      · exact (uninstallFailed_mem_removalLog_name hmem').1 hdesired

/-- C4 witness: with prior state recording `rg` at the desired version,
reconciliation emits only a skip for it. -/
theorem syncTools_schedule_iff_witness :
    SyncAction.skipped "rg" ∈
      (syncTools (fun _ => none) (fun _ _ => false)
        [{ name := "rg", version := "14.0.0", source := "brew", url := "",
           repo := "", tag := "" }]
        [("rg", ⟨"14.0.0", "/opt/homebrew/bin/rg", true⟩)]).2 :=
  ((syncTools_schedule_iff (fun _ => none) (fun _ _ => false)
      [{ name := "rg", version := "14.0.0", source := "brew", url := "",
         repo := "", tag := "" }]
      [("rg", ⟨"14.0.0", "/opt/homebrew/bin/rg", true⟩)]
      { name := "rg", version := "14.0.0", source := "brew", url := "",
        repo := "", tag := "" }
      (by decide) (by decide)).2
    ⟨⟨"14.0.0", "/opt/homebrew/bin/rg", true⟩, by decide, rfl⟩).1

/-! ## Claim C10 -/

/-- C10.  Every record the Synchronizer writes carries
`InstalledByDevSetup = true`; consequently a record with the flag `false`
can appear in the resulting state only if it was already present,
unchanged, in the input state. -/
theorem syncTools_origin_flag (inst : Tool → Option String)
    (uninst : String → ToolState → Bool) (tools : List Tool) (st : ToolMap)
    (n : String) (rec : ToolState) :
    (SyncAction.installed n rec ∈ (syncTools inst uninst tools st).2 →
      rec.installedByDevSetup = true) ∧
    (lookupName n (syncTools inst uninst tools st).1 = some rec →
      rec.installedByDevSetup = true ∨ lookupName n st = some rec) := by
  constructor
  · intro hmem
    rcases List.mem_append.mp hmem with hmem' | hmem'
    · rcases installed_mem_installLog hmem' with ⟨u, _, _, _, _, hrec⟩
      rw [hrec]
      rfl
    · exact absurd hmem' removalLog_no_installed
  · intro hlook
    have h1 : lookupName n (installPhase inst tools st) = some rec :=
      lookup_foldl_applyRemoval_some _ _ hlook
    rcases lookup_foldl_applyInstall_cases _ _ h1 with hmem | hbase
    · rcases installed_mem_installLog hmem with ⟨u, _, _, _, _, hrec⟩
      left
      rw [hrec]
      rfl
    · exact Or.inr hbase

/-- C10 witness: the record written for a freshly installed tool has the
origin flag set. -/
theorem syncTools_origin_flag_witness :
    (⟨"14.0.0", "/p", true⟩ : ToolState).installedByDevSetup = true :=
  (syncTools_origin_flag (fun _ => some "/p") (fun _ _ => false)
      [{ name := "rg", version := "14.0.0", source := "brew", url := "",
         repo := "", tag := "" }]
      [] "rg" ⟨"14.0.0", "/p", true⟩).1 (by decide)

/-! ## Claim C3 -/

/-- C3.  For every state entry whose name is absent from the desired list:
after the pass the entry is gone iff the Uninstaller succeeded on it; on
failure the old record is retained completely unchanged and a failure
action is logged; and every such stale entry is processed (an uninstall
attempt is logged for each one), so one failure never aborts the rest of
the pass. -/
theorem syncTools_removal_iff (inst : Tool → Option String)
    (uninst : String → ToolState → Bool) (tools : List Tool) (st : ToolMap)
    (n : String) (ts : ToolState) (hnd : (keysOf st).Nodup)
    (hmem : (n, ts) ∈ st) (habs : n ∉ tools.map Tool.name) :
    (lookupName n (syncTools inst uninst tools st).1 = none ↔
      uninst n ts = true) ∧
    (uninst n ts = false →
      lookupName n (syncTools inst uninst tools st).1 = some ts) ∧
    (uninst n ts = false →
      SyncAction.uninstallFailed n ∈ (syncTools inst uninst tools st).2) ∧
    (∀ m tm, (m, tm) ∈ st → m ∉ tools.map Tool.name →
      SyncAction.uninstalled m ∈ (syncTools inst uninst tools st).2 ∨
      SyncAction.uninstallFailed m ∈ (syncTools inst uninst tools st).2) := by
  have hmem1 : (n, ts) ∈ installPhase inst tools st :=
    (mem_installPhase_of_not_desired habs).mpr hmem
  have hnd1 : (keysOf (installPhase inst tools st)).Nodup :=
    nodup_keys_foldl_applyInstall _ _ hnd
  have hretain : uninst n ts = false →
      lookupName n (syncTools inst uninst tools st).1 = some ts := by
    intro hu
    exact lookup_removalPhase_of_uninstall_failure hnd1 hmem1 hu
  refine ⟨⟨?_, ?_⟩, hretain, ?_, ?_⟩
  · intro hnone
    by_cases hu : uninst n ts = true
    · exact hu
    · rw [hretain (Bool.not_eq_true _ ▸ hu)] at hnone
      cases hnone
  · intro hu
    exact lookup_removalPhase_of_uninstall_success hmem1 habs hu
  · intro hu
    apply List.mem_append.mpr
    right
    apply List.mem_filterMap.mpr
    refine ⟨(n, ts), hmem1, ?_⟩
    unfold removalAction
    rw [if_neg habs, hu]
    rfl
  · intro m tm hm habs'
    have hm1 : (m, tm) ∈ installPhase inst tools st :=
      (mem_installPhase_of_not_desired habs').mpr hm
    cases hu : uninst m tm with
    | true =>
      left
      apply List.mem_append.mpr
      right
      apply List.mem_filterMap.mpr
      refine ⟨(m, tm), hm1, ?_⟩
      unfold removalAction
      rw [if_neg habs', hu]
      rfl
    | false =>
      right
      apply List.mem_append.mpr
      right
      apply List.mem_filterMap.mpr
      refine ⟨(m, tm), hm1, ?_⟩
      unfold removalAction
      rw [if_neg habs', hu]
      rfl

/-- C3 witness: a stale entry whose uninstall fails is retained unchanged. -/
theorem syncTools_removal_iff_witness :
    lookupName "old" (syncTools (fun _ => none) (fun _ _ => false) []
        [("old", ⟨"1", "/p", true⟩)]).1 = some ⟨"1", "/p", true⟩ :=
  (syncTools_removal_iff (fun _ => none) (fun _ _ => false) []
      [("old", ⟨"1", "/p", true⟩)] "old" ⟨"1", "/p", true⟩
      (by decide) (by decide) (by decide)).2.1 rfl

/-! ## Claim C2 -/

/-- C2.  Idempotence: if a first `SyncTools` pass over a well-formed tool
list and state logs no install failure and no uninstall failure, then a
second pass with the same tool list over the resulting state performs zero
install attempts and zero uninstall attempts — its log is exactly one
"already current" skip per declared tool. -/
theorem syncTools_idempotent (inst : Tool → Option String)
    (uninst : String → ToolState → Bool) (tools : List Tool) (st : ToolMap)
    (hnd : (tools.map Tool.name).Nodup)
    (hif : ∀ n, SyncAction.installFailed n ∉ (syncTools inst uninst tools st).2)
    (huf : ∀ n, SyncAction.uninstallFailed n
              ∉ (syncTools inst uninst tools st).2) :
    (syncTools inst uninst tools (syncTools inst uninst tools st).1).2
      = tools.map (fun t => SyncAction.skipped t.name) := by
  set desired := tools.map Tool.name with hdes
  set st1 := installPhase inst tools st with hst1
  set st2 := removalPhase uninst desired st1 with hst2
  have hfst : (syncTools inst uninst tools st).1 = st2 := rfl
  -- Step A: every desired tool is recorded in `st2` at its desired version.
  have stepA : ∀ t ∈ tools, ∃ rec,
      lookupName t.name st2 = some rec ∧ rec.version = t.version := by
    intro t ht
    have hdes_mem : t.name ∈ desired := List.mem_map_of_mem Tool.name ht
    have hkeep : lookupName t.name st2 = lookupName t.name st1 :=
      lookup_removalPhase_of_desired hdes_mem
    by_cases hni : needsInstall t st = true
    · cases hp : inst t with
      | none =>
        exfalso
        apply hif t.name
        apply List.mem_append.mpr
        left
        have hact : installAction inst st t ∈ installLog inst tools st :=
          List.mem_map_of_mem _ ht
        unfold installAction at hact
        rw [if_pos hni, hp] at hact
        exact hact
      | some p =>
        refine ⟨mkRec t p, ?_, rfl⟩
        rw [hkeep]
        exact lookup_installPhase_of_success hnd ht hni hp
    · have hni' : needsInstall t st = false := Bool.not_eq_true _ ▸ hni
      rcases (needsInstall_eq_false_iff t st).mp hni' with ⟨cur, hcur, hver⟩
      refine ⟨cur, ?_, hver⟩
      rw [hkeep, lookup_installPhase_of_current hnd ht hni', hcur]
    -- Step B: every desired tool is current against `st2`.
  have stepB : ∀ t ∈ tools, needsInstall t st2 = false := by
    intro t ht
    rcases stepA t ht with ⟨rec, hrec, hver⟩
    exact (needsInstall_eq_false_iff t st2).mpr ⟨rec, hrec, hver⟩
  -- Step C: the second install phase only skips and leaves `st2` as is.
  have hlog2 : installLog inst tools st2
      = tools.map (fun t => SyncAction.skipped t.name) := by
    apply List.map_congr_left
    intro t ht
    unfold installAction
    rw [if_neg (by rw [stepB t ht]; exact Bool.false_ne_true)]
  have hst2' : installPhase inst tools st2 = st2 := by
    unfold installPhase
    rw [hlog2]
    apply foldl_applyInstall_of_no_writes
    intro a ha n rec
    rcases List.mem_map.mp ha with ⟨u, _, rfl⟩
    intro hc
    cases hc
  -- Step D: every entry of `st2` is desired, so the second removal log is
  -- empty.
  have stepD : ∀ e ∈ st2, e.1 ∈ desired := by
    intro e he
    by_contra habs
    have he1 : e ∈ st1 := mem_foldl_applyRemoval _ _ he
    cases hu : uninst e.1 e.2 with
    | false =>
      apply huf e.1
      apply List.mem_append.mpr
      right
      apply List.mem_filterMap.mpr
      refine ⟨e, he1, ?_⟩
      unfold removalAction
      rw [if_neg habs, hu]
      rfl
    | true =>
      have hdel : lookupName e.1 st2 = none := by
        apply lookup_foldl_applyRemoval_removed
        apply List.mem_filterMap.mpr
        refine ⟨e, he1, ?_⟩
        unfold removalAction
        rw [if_neg habs, hu]
        rfl
      rcases lookupName_isSome_of_mem (by simpa using he) with ⟨w, hw⟩
      rw [hdel] at hw
      cases hw
  have hrlog2 : removalLog uninst desired st2 = [] := by
    apply List.filterMap_eq_nil_iff.mpr
    intro e he
    unfold removalAction
    rw [if_pos (stepD e he)]
  show installLog inst tools st2 ++
      removalLog uninst desired (installPhase inst tools st2)
      = tools.map (fun t => SyncAction.skipped t.name)
  rw [hst2', hrlog2, List.append_nil, hlog2]

/-- C2 witness: after a successful install of `rg`, a second pass only
skips. -/
theorem syncTools_idempotent_witness :
    (syncTools (fun _ => some "/opt/homebrew/bin/rg") (fun _ _ => false)
        [{ name := "rg", version := "14.0.0", source := "brew", url := "",
           repo := "", tag := "" }]
        (syncTools (fun _ => some "/opt/homebrew/bin/rg") (fun _ _ => false)
          [{ name := "rg", version := "14.0.0", source := "brew", url := "",
             repo := "", tag := "" }] []).1).2
      = [SyncAction.skipped "rg"] := by
  have h := syncTools_idempotent (fun _ => some "/opt/homebrew/bin/rg")
    (fun _ _ => false)
    [{ name := "rg", version := "14.0.0", source := "brew", url := "",
       repo := "", tag := "" }] [] (by decide)
    (by
      intro n hmem
      have hlog : (syncTools (fun _ => some "/opt/homebrew/bin/rg")
          (fun _ _ => false)
          [{ name := "rg", version := "14.0.0", source := "brew", url := "",
             repo := "", tag := "" }] []).2
          = [SyncAction.installed "rg" ⟨"14.0.0", "/opt/homebrew/bin/rg", true⟩] := by
        decide
      rw [hlog] at hmem
      cases List.mem_singleton.mp hmem)
    (by
      intro n hmem
      have hlog : (syncTools (fun _ => some "/opt/homebrew/bin/rg")
          (fun _ _ => false)
          [{ name := "rg", version := "14.0.0", source := "brew", url := "",
             repo := "", tag := "" }] []).2
          = [SyncAction.installed "rg" ⟨"14.0.0", "/opt/homebrew/bin/rg", true⟩] := by
        decide
      rw [hlog] at hmem
      cases List.mem_singleton.mp hmem)
  exact h

/-! ## Claim C1 -/

theorem installExecutable_ok_ne_empty {genv : GithubEnv} {tn p : String}
    (h : installExecutable genv tn = Except.ok p) : p ≠ "" := by
  unfold installExecutable at h
  split at h
  · obtain rfl := Except.ok.inj h
    exact pathJoin_ne_empty_left tn (by decide)
  · split at h
    · split at h
      · split at h
        · obtain rfl := Except.ok.inj h
          exact pathJoin_ne_empty_left tn
            (pathJoin_ne_empty_right genv.userHome (by decide))
        · cases h
      · cases h
    · cases h

theorem downloadFromGitHub_ok_ne_empty {genv : GithubEnv} {p : String}
    (h : downloadFromGitHub genv = Except.ok p) : p ≠ "" := by
  unfold downloadFromGitHub at h
  split at h
  · cases h
  · split at h
    · cases h
    · split at h
      · split at h
        · cases h
        · split at h
          · cases h
          · exact installExecutable_ok_ne_empty h
      · cases h

theorem copyBinaries_dest_cases {env : CopyEnv} {home : String} :
    ∀ (bs : List String) (dest d : String)
      (cs : List (String × String)),
      copyBinaries env home bs dest = some (d, cs) →
      d = dest ∨ d = homeBinDir home := by
  intro bs
  induction bs with
  | nil =>
    intro dest d cs h
    unfold copyBinaries at h
    have h' := Option.some.inj h
    rw [Prod.mk.injEq] at h'
    exact Or.inl h'.1.symm
  | cons b rest ih =>
    intro dest d cs h
    unfold copyBinaries at h
    split at h
    · split at h
      · rename_i d' cs' heq
        have h' := Option.some.inj h
        rw [Prod.mk.injEq] at h'
        rcases h' with ⟨hd, -⟩
        rcases ih dest d' cs' heq with h2 | h2
        · exact Or.inl (hd ▸ h2)
        · exact Or.inr (hd ▸ h2)
      · cases h
    · split at h
      · split at h
        · split at h
          · rename_i d' cs' heq
            have h' := Option.some.inj h
            rw [Prod.mk.injEq] at h'
            rcases h' with ⟨hd, -⟩
            rcases ih (homeBinDir home) d' cs' heq with h2 | h2 <;>
              exact Or.inr (hd ▸ h2)
          · cases h
        · cases h
      · cases h

theorem extractAndInstallResult_ne_empty {env : CopyEnv} {home : String}
    {bs : List String} {s : String}
    (h : extractAndInstallResult env home bs = some s) : s ≠ "" := by
  unfold extractAndInstallResult at h
  split at h
  · rename_i d cs heq
    obtain rfl := Option.some.inj h
    rcases copyBinaries_dest_cases bs usrLocalBin d cs heq with hd | hd
    · exact pathJoin_ne_empty_left _ (hd ▸ (by decide : usrLocalBin ≠ ""))
    · exact pathJoin_ne_empty_left _
        (hd ▸ pathJoin_ne_empty_right home (by decide : ("bin" : String) ≠ ""))
  · cases h

theorem extractAndInstallFull_ne_empty {env : CopyEnv} {home src : String}
    {ext : Option ExtractedInfo} {tree : List FileEntry} {s : String}
    (h : extractAndInstallFull env home src ext tree = some s) : s ≠ "" := by
  unfold extractAndInstallFull at h
  split at h
  · cases h
  · split at h
    · cases h
    · exact extractAndInstallResult_ne_empty h

theorem installTool_true_ne_empty (env : InstallEnv) (t : Tool) :
    (installTool env t).1 = true → (installTool env t).2 ≠ "" := by
  unfold installTool
  split
  · -- github
    split
    · intro h; cases h
    · rename_i p heq
      intro _
      exact downloadFromGitHub_ok_ne_empty heq
  · -- url
    split
    · split
      · split
        · intro _; decide
        · intro h; cases h
      · split
        · intro h; cases h
        · rename_i asset heq
          split
          · intro _
            exact extractAndInstallFull_ne_empty heq
          · intro h; cases h
    · intro h; cases h
  · -- brew
    split
    · intro _
      exact str_append_ne_empty_left t.name (by decide)
    · intro h; cases h
  · -- go
    split
    · intro _
      exact pathJoin_ne_empty_left t.name
        (pathJoin_ne_empty_right _ (by decide : ("bin" : String) ≠ ""))
    · intro h; cases h
  · -- rustup
    split
    · split
      · intro h; cases h
      · split
        · split
          · split
            · intro _
              exact pathJoin_ne_empty_left t.name
                (pathJoin_ne_empty_right _ (by decide : ("bin" : String) ≠ ""))
            · intro h; cases h
          · intro h; cases h
        · intro h; cases h
    · intro h; cases h
  · -- unknown source
    intro h; cases h

/-- C1.  A successful `installTool` call returns a non-empty install path
(for every source kind), and every record the Synchronizer subsequently
writes for a tool stems from a declared tool whose install succeeded: its
version is exactly the desired version and its install path is exactly
the path `installTool` returned (hence non-empty). -/
theorem installTool_success_path_record (env : InstallEnv)
    (uninst : String → ToolState → Bool) (tools : List Tool) (st : ToolMap)
    (n : String) (rec : ToolState) :
    (∀ t, (installTool env t).1 = true → (installTool env t).2 ≠ "") ∧
    (SyncAction.installed n rec
        ∈ (syncTools (instOf env) uninst tools st).2 →
      rec.installPath ≠ "" ∧
      ∃ u, u ∈ tools ∧ u.name = n ∧ rec.version = u.version ∧
        installTool env u = (true, rec.installPath)) := by
  refine ⟨fun t => installTool_true_ne_empty env t, fun hmem => ?_⟩
  rcases List.mem_append.mp hmem with hmem' | hmem'
  · rcases installed_mem_installLog hmem' with ⟨u, hu, hname, _, hinst, hrec⟩
    have hcall : installTool env u = (true, rec.installPath) := by
      unfold instOf at hinst
      split at hinst
      · rename_i p heq
        rw [heq]
        rw [Option.some.inj hinst]
      · cases hinst
    refine ⟨?_, u, hu, hname, by rw [hrec]; rfl, hcall⟩
    have h1 : (installTool env u).1 = true := by rw [hcall]
    have h2 := installTool_true_ne_empty env u h1
    rw [hcall] at h2
    exact h2
  · exact absurd hmem' removalLog_no_installed

/-- C1 witness: a successful Homebrew install of `rg` yields the non-empty
path `/opt/homebrew/bin/rg`, and the record written carries the desired
version and that path. -/
theorem installTool_success_path_record_witness :
    ("/opt/homebrew/bin/rg" : String) ≠ "" ∧
    ∃ u, u ∈ [sampleTool] ∧ u.name = "rg" ∧
      ("14.0.0" : String) = u.version ∧
      installTool sampleEnv u = (true, "/opt/homebrew/bin/rg") :=
  (installTool_success_path_record sampleEnv (fun _ _ => false)
      [sampleTool] [] "rg" ⟨"14.0.0", "/opt/homebrew/bin/rg", true⟩).2
    (by decide)

/-! ## Claim C5 -/

theorem find?_first {f : Asset → Bool} :
    ∀ (l₁ : List Asset) (a : Asset) (l₂ : List Asset),
      (∀ b ∈ l₁, f b = false) → f a = true →
      (l₁ ++ a :: l₂).find? f = some a := by
  intro l₁
  induction l₁ with
  | nil =>
    intro a l₂ _ ha
    rw [List.nil_append]
    exact List.find?_cons_of_pos _ ha
  | cons b bs ih =>
    intro a l₂ hb ha
    rw [List.cons_append, List.find?_cons_of_neg]
    · exact ih a l₂ (fun x hx => hb x (List.mem_cons.mpr (Or.inr hx))) ha
    · rw [hb b (List.mem_cons_self _ _)]
      exact Bool.false_ne_true

theorem selectAsset_eq_none_iff (patterns : List String)
    (assets : List Asset) :
    selectAsset patterns assets = none ↔
      ∀ p ∈ patterns, ∀ a ∈ assets, assetMatches p a = false := by
  induction patterns with
  | nil => simp [selectAsset]
  | cons p rest ih =>
    cases hf : assets.find? (assetMatches p) with
    | some a =>
      simp only [selectAsset, hf]
      constructor
      · intro h; cases h
      · intro hall
        have h1 := List.find?_some hf
        have h2 := hall p (List.mem_cons_self _ _) a
          (List.mem_of_find?_eq_some hf)
        rw [h2] at h1
        cases h1
    | none =>
      simp only [selectAsset, hf, ih]
      have hnone := List.find?_eq_none.mp hf
      rw [List.forall_mem_cons]
      constructor
      · intro h
        refine ⟨fun a ha => ?_, h⟩
        simpa using hnone a ha
      · intro h
        exact h.2

/-- C5 counterexample.  With the code's pattern list, the release assets
`x-arm64.tgz` and `x-darwin-arm64.tgz` both match the pattern `arm64`
(substring plus recognized suffix), yet the asset appearing *later* in
the listing is selected, because it matches the higher-priority pattern
`darwin-arm64`: listing order does not always break the tie. -/
theorem selectAsset_priority_counterexample :
    ("arm64" ∈ preferredPatterns) ∧
    assetMatches "arm64" ⟨"x-arm64.tgz", "u1"⟩ = true ∧
    assetMatches "arm64" ⟨"x-darwin-arm64.tgz", "u2"⟩ = true ∧
    selectAsset preferredPatterns
        [⟨"x-arm64.tgz", "u1"⟩, ⟨"x-darwin-arm64.tgz", "u2"⟩]
      = some ⟨"x-darwin-arm64.tgz", "u2"⟩ ∧
    (⟨"x-darwin-arm64.tgz", "u2"⟩ : Asset) ≠ ⟨"x-arm64.tgz", "u1"⟩ := by
  refine ⟨by decide, by decide, by decide, by decide, by decide⟩

/-- C5 amended.  Asset selection is deterministic and order-based:
patterns are tried in the fixed priority order; the selected asset is the
first one, in listing order, matching the highest-priority pattern that
any asset matches — so listing order breaks ties only among assets of the
winning pattern; and if no asset matches any pattern, selection is empty
and `downloadFromGitHub` fails with the "no matching asset" error rather
than succeeding. -/
theorem selectAsset_order_spec :
    (∀ patterns assets, selectAsset patterns assets = none ↔
        ∀ p ∈ patterns, ∀ a ∈ assets, assetMatches p a = false) ∧
    (∀ (ps₁ : List String) (p : String) (ps₂ : List String)
        (as₁ : List Asset) (a : Asset) (as₂ : List Asset),
      (∀ q ∈ ps₁, ∀ b ∈ as₁ ++ a :: as₂, assetMatches q b = false) →
      (∀ b ∈ as₁, assetMatches p b = false) →
      assetMatches p a = true →
      selectAsset (ps₁ ++ p :: ps₂) (as₁ ++ a :: as₂) = some a) ∧
    (∀ assets, selectAsset preferredPatterns assets = none →
        downloadSelect assets = Except.error "no matching asset found") := by
  refine ⟨selectAsset_eq_none_iff, ?_, ?_⟩
  · intro ps₁
    induction ps₁ with
    | nil =>
      intro p ps₂ as₁ a as₂ _ hb ha
      rw [List.nil_append]
      show (match (as₁ ++ a :: as₂).find? (assetMatches p) with
        | some a => some a
        | none => selectAsset ps₂ (as₁ ++ a :: as₂)) = some a
      rw [find?_first as₁ a as₂ hb ha]
    | cons q qs ih =>
      intro p ps₂ as₁ a as₂ hq hb ha
      rw [List.cons_append]
      show (match (as₁ ++ a :: as₂).find? (assetMatches q) with
        | some a => some a
        | none => selectAsset (qs ++ p :: ps₂) (as₁ ++ a :: as₂)) = some a
      have hfq : (as₁ ++ a :: as₂).find? (assetMatches q) = none := by
        apply List.find?_eq_none.mpr
        intro x hx
        rw [hq q (List.mem_cons_self _ _) x hx]
        exact Bool.false_ne_true
      rw [hfq]
      exact ih p ps₂ as₁ a as₂
        (fun q' hq' b hbm => hq q' (List.mem_cons.mpr (Or.inr hq')) b hbm)
        hb ha
  · intro assets hnone
    unfold downloadSelect
    rw [hnone]

/-- C5 witness: with the priority patterns exhausted down to `arm64`, the
earlier of two `arm64`-matching assets is selected. -/
theorem selectAsset_order_spec_witness :
    selectAsset
        (["darwin-arm64", "darwin_aarch64", "aarch64-apple-darwin"]
          ++ "arm64" :: ["macos"])
        ([⟨"x.txt", "u0"⟩] ++ ⟨"a-arm64.tgz", "u1"⟩ :: [⟨"b-arm64.tgz", "u2"⟩])
      = some ⟨"a-arm64.tgz", "u1"⟩ :=
  selectAsset_order_spec.2.1
    ["darwin-arm64", "darwin_aarch64", "aarch64-apple-darwin"]
    "arm64" ["macos"] [⟨"x.txt", "u0"⟩] ⟨"a-arm64.tgz", "u1"⟩
    [⟨"b-arm64.tgz", "u2"⟩] (by decide) (by decide) (by decide)

/-! ## Claim C6 -/

theorem copyBinaries_trace {env : CopyEnv} {home : String} :
    ∀ (bs : List String) (dest d : String) (cs : List (String × String)),
      copyBinaries env home bs dest = some (d, cs) →
      cs.map Prod.fst = bs ∧
      (∀ pr ∈ cs, pr.2 = dest ∨ pr.2 = homeBinDir home) ∧
      (∃ k, cs.map Prod.snd
          = List.replicate k dest
            ++ List.replicate (cs.length - k) (homeBinDir home)) := by
  intro bs
  induction bs with
  | nil =>
    intro dest d cs h
    unfold copyBinaries at h
    have h' := Option.some.inj h
    rw [Prod.mk.injEq] at h'
    obtain ⟨-, rfl⟩ := h'
    refine ⟨rfl, ?_, ⟨0, rfl⟩⟩
    intro pr hpr
    exact absurd hpr (List.not_mem_nil pr)
  | cons b rest ih =>
    intro dest d cs h
    unfold copyBinaries at h
    split at h
    · split at h
      · rename_i d' cs' heq
        have h' := Option.some.inj h
        rw [Prod.mk.injEq] at h'
        obtain ⟨-, rfl⟩ := h'
        obtain ⟨h1, h2, k', h3⟩ := ih dest d' cs' heq
        refine ⟨by rw [List.map_cons, h1], ?_, k' + 1, ?_⟩
        · intro pr hpr
          rcases List.mem_cons.mp hpr with rfl | hpr'
          · exact Or.inl rfl
          · exact h2 pr hpr'
        · rw [List.map_cons, h3, List.replicate_succ, List.length_cons,
            Nat.succ_sub_succ, List.cons_append]
      · cases h
    · split at h
      · split at h
        · split at h
          · rename_i d' cs' heq
            have h' := Option.some.inj h
            rw [Prod.mk.injEq] at h'
            obtain ⟨-, rfl⟩ := h'
            obtain ⟨h1, h2, k', h3⟩ := ih (homeBinDir home) d' cs' heq
            have hlen : cs'.length = k' + (cs'.length - k') := by
              have := congrArg List.length h3
              simpa [List.length_map, List.length_append,
                List.length_replicate] using this
            have hall : cs'.map Prod.snd
                = List.replicate cs'.length (homeBinDir home) := by
              rw [h3, ← List.replicate_add, ← hlen]
            refine ⟨by rw [List.map_cons, h1], ?_, 0, ?_⟩
            · intro pr hpr
              rcases List.mem_cons.mp hpr with rfl | hpr'
              · exact Or.inr rfl
              · rcases h2 pr hpr' with h' | h' <;> exact Or.inr h'
            · rw [List.map_cons, hall, List.replicate_zero, List.nil_append,
                List.length_cons, Nat.sub_zero, List.replicate_succ]
          · cases h
        · cases h
      · cases h

theorem copyBinaries_cons_head {env : CopyEnv}
    {home b : String} {rest : List String} {dest d : String}
    {cs : List (String × String)}
    (h : copyBinaries env home (b :: rest) dest = some (d, cs)) :
    ∃ dir₁ cs', cs = (b, dir₁) :: cs' := by
  unfold copyBinaries at h
  split at h
  · split at h
    · rename_i d' cs' _
      have h' := Option.some.inj h
      rw [Prod.mk.injEq] at h'
      exact ⟨dest, cs', h'.2.symm⟩
    · cases h
  · split at h
    · split at h
      · split at h
        · rename_i d' cs' _
          have h' := Option.some.inj h
          rw [Prod.mk.injEq] at h'
          exact ⟨homeBinDir home, cs', h'.2.symm⟩
        · cases h
      · cases h
    · cases h

/-- C6 counterexample.  With two discovered binaries where only the copy
of the second one to `/usr/local/bin` fails, the first binary is copied
(only) to `/usr/local/bin`, yet the returned install path is
`~/bin/<first>`: the reported path is not the first binary's final
location when a later binary triggers the fallback. -/
theorem extractAndInstall_first_binary_counterexample :
    copyBinaries cexCopyEnv "/h" ["/t/b1", "/t/b2"] usrLocalBin
      = some ("/h/bin", [("/t/b1", "/usr/local/bin"), ("/t/b2", "/h/bin")]) ∧
    extractAndInstallResult cexCopyEnv "/h" ["/t/b1", "/t/b2"]
      = some "/h/bin/b1" ∧
    pathJoin "/usr/local/bin" (baseName "/t/b1") = "/usr/local/bin/b1" ∧
    ("/h/bin/b1" : String) ≠ "/usr/local/bin/b1" := by
  refine ⟨by decide, by decide, by decide, by decide⟩

/-- C6 amended.  In the copy loop each discovered binary is copied exactly
once, in order, into either the system directory or the per-user fallback
directory; once the fallback is taken all subsequent binaries go there
(the destination sequence is a block of system copies followed by a block
of fallback copies); the returned install path is the basename of the
*first* binary joined to the destination directory in effect at the *end*
of the loop — which is the first binary's actual final location whenever
all copies landed in one directory (in particular when no fallback
occurred, or when the first binary itself triggered it), but not when a
later binary first triggered the fallback. -/
theorem copyBinaries_destination_spec (env : CopyEnv) (home b : String)
    (rest : List String) (d : String) (copies : List (String × String))
    (h : copyBinaries env home (b :: rest) usrLocalBin = some (d, copies)) :
    copies.map Prod.fst = b :: rest ∧
    (∀ pr ∈ copies, pr.2 = usrLocalBin ∨ pr.2 = homeBinDir home) ∧
    (∃ k, copies.map Prod.snd
        = List.replicate k usrLocalBin
          ++ List.replicate (copies.length - k) (homeBinDir home)) ∧
    extractAndInstallResult env home (b :: rest)
      = some (pathJoin d (baseName b)) ∧
    ((∀ pr ∈ copies, pr.2 = d) → copies.head? = some (b, d)) := by
  obtain ⟨h1, h2, h3⟩ := copyBinaries_trace (b :: rest) usrLocalBin d copies h
  refine ⟨h1, h2, h3, ?_, ?_⟩
  · unfold extractAndInstallResult
    rw [h]
    rfl
  · intro hall
    obtain ⟨dir₁, cs', rfl⟩ := copyBinaries_cons_head h
    have hd : dir₁ = d := hall (b, dir₁) (List.mem_cons_self _ _)
    rw [hd]
    rfl

/-- C6 witness: when every copy to the system directory succeeds, the
returned path is the first binary's final location there. -/
theorem copyBinaries_destination_spec_witness :
    extractAndInstallResult allOkCopyEnv "/h" ["/t/b1", "/t/b2"]
      = some (pathJoin "/usr/local/bin" (baseName "/t/b1")) ∧
    ([("/t/b1", "/usr/local/bin"), ("/t/b2", "/usr/local/bin")]
        : List (String × String)).head?
      = some ("/t/b1", "/usr/local/bin") := by
  have h := copyBinaries_destination_spec allOkCopyEnv "/h" "/t/b1"
    ["/t/b2"] "/usr/local/bin"
    [("/t/b1", "/usr/local/bin"), ("/t/b2", "/usr/local/bin")] (by decide)
  exact ⟨h.2.2.2.1, h.2.2.2.2 (by decide)⟩

/-! ## Claim C9 -/

/-- C9.  When extraction yields a single regular file, the install step
takes that file as the binary unconditionally — the choice is the same
for every possible walked tree, tool-name, permission or file-type
attribute, and the call proceeds straight to the copy loop; whereas in
the directory case every chosen binary passed both the tool-name-basename
check and the executable check of `findExecutables`. -/
theorem extractAndInstall_single_file_unconditional (env : CopyEnv)
    (home src : String) (info : ExtractedInfo) (tree : List FileEntry) :
    (info.isDir = false →
      chosenBinaries src info tree = some [info.path] ∧
      extractAndInstallFull env home src (some info) tree
        = extractAndInstallResult env home [info.path]) ∧
    (info.isDir = true → ∀ bs, chosenBinaries src info tree = some bs →
      ∀ p ∈ bs, ∃ f ∈ tree, f.path = p ∧
        fileIsExecutable (extractToolNameFromPath src) f = true ∧
        strStartsWith (baseName p) (extractToolNameFromPath src) = true) := by
  constructor
  · intro hdir
    have hcb : chosenBinaries src info tree = some [info.path] := by
      unfold chosenBinaries
      rw [if_neg (by rw [hdir]; exact Bool.false_ne_true)]
    refine ⟨hcb, ?_⟩
    show (match chosenBinaries src info tree with
      | none => none
      | some bs => extractAndInstallResult env home bs)
        = extractAndInstallResult env home [info.path]
    rw [hcb]
  · intro hdir bs hbs p hp
    unfold chosenBinaries at hbs
    rw [if_pos hdir] at hbs
    cases hfe : findExecutables tree (extractToolNameFromPath src) with
    | nil => rw [hfe] at hbs; cases hbs
    | cons x xs =>
      rw [hfe] at hbs
      obtain rfl := Option.some.inj hbs
      have hpmem : p ∈ findExecutables tree (extractToolNameFromPath src) := by
        rw [hfe]; exact hp
      unfold findExecutables at hpmem
      rcases List.mem_map.mp hpmem with ⟨f, hf, rfl⟩
      have hmemtree : f ∈ tree := List.mem_of_mem_filter hf
      have hpred : fileIsExecutable (extractToolNameFromPath src) f = true :=
        List.of_mem_filter hf
      refine ⟨f, hmemtree, rfl, hpred, ?_⟩
      unfold fileIsExecutable at hpred
      exact (Bool.and_eq_true _ _ |>.mp hpred).1

/-- C9 witness: a single extracted file with no execute permission and no
recognized file-type output is still chosen as the binary. -/
theorem extractAndInstall_single_file_unconditional_witness :
    chosenBinaries "/tmp/x.zip" ⟨"/tmp/f", false⟩
        [⟨"/tmp/f", true, 0, none⟩] = some ["/tmp/f"] :=
  ((extractAndInstall_single_file_unconditional allOkCopyEnv "/h"
      "/tmp/x.zip" ⟨"/tmp/f", false⟩ [⟨"/tmp/f", true, 0, none⟩]).1 rfl).1

end SetupMachine
